import Mathlib

/-!
Shallow embedding of `src/src/api/memory/android/Hook.cpp` (namespace `memory`):
the hook-chain registry (`HookElement`, `HookData::updateCallList`, `hook`,
`unhook`, `unhookAll`) and the address resolver (`resolveIdentifier`).

Function addresses (`FuncPtr`) and caller-owned slot addresses (`FuncPtr*`)
are modelled as `Nat` (0 plays the role of `nullptr`).  Caller slot memory is
an explicit map `Nat → Nat`; `updateCallList` returns, besides the new `start`
value, the ordered list of slot writes `(address, value)` it performs, which
are applied to the memory in order.  The external shadowhook engine is a
black box: each operation takes as an oracle argument the response the engine
gives to the single engine call the code may make
(`shadowhook_hook_func_addr` returns a stub and writes the previous entry
point through its out-parameter; `none` models a failing call that returns a
null stub and writes nothing; `shadowhook_unhook` returns a status the code
ignores).  Every engine interaction and every write of a chain `origin`
field is recorded in an event trace so that call counts can be stated.
-/

namespace HookModel

/-- `memory::HookElement` (Hook.cpp lines 39-50). -/
structure HookElement where
  detour : Nat
  originalFunc : Nat
  priority : Nat
  id : Nat
deriving DecidableEq, Repr

/-- `HookElement::operator<` (Hook.cpp lines 45-49): lexicographic on
`(priority, id)`. -/
def HookElement.lt (a b : HookElement) : Bool :=
  if a.priority ≠ b.priority then decide (a.priority < b.priority)
  else decide (a.id < b.id)

/-- `std::set<HookElement>::insert` on the sorted entry list: insert before
the first strictly greater element; if an equivalent element (equal
`(priority, id)`) is present, nothing is inserted. -/
def insertElem (e : HookElement) : List HookElement → List HookElement
  | [] => [e]
  | h :: t =>
      if HookElement.lt e h then e :: h :: t
      else if HookElement.lt h e then h :: insertElem e t
      else h :: t

/-- `memory::HookData` (Hook.cpp lines 52-81).  `hooks` is the contents of
the `std::set` in its ascending iteration order. -/
structure HookData where
  target : Nat
  origin : Nat
  start : Nat
  stub : Nat
  hookId : Nat
  hooks : List HookElement
deriving DecidableEq, Repr

/-- The loop body of `HookData::updateCallList` after the first iteration
(Hook.cpp lines 62-71), with `last` already pointing at the previous
element's slot: each further element writes its detour through `last` and
becomes the new `last`.  Returns the writes performed and the final `last`
slot. -/
def uclGo : List HookElement → Nat → List (Nat × Nat) × Nat
  | [], last => ([], last)
  | e :: es, last =>
      ((last, e.detour) :: (uclGo es e.originalFunc).1, (uclGo es e.originalFunc).2)

/-- `HookData::updateCallList` (Hook.cpp lines 60-78) as a pure function of
the current `origin` and the entry list: returns the new `start` value and
the ordered list of slot writes.  The first iteration sets
`start := e.detour` and writes `origin` through the first slot (line 66);
each later iteration overwrites the previous slot with its detour; after the
loop the last slot receives `origin` (line 76), and an empty set yields
`start := origin` with no writes (line 74). -/
def updateCallList (origin : Nat) : List HookElement → Nat × List (Nat × Nat)
  | [] => (origin, [])
  | e :: es =>
      (e.detour,
       ((e.originalFunc, origin) :: (uclGo es e.originalFunc).1)
         ++ [((uclGo es e.originalFunc).2, origin)])

/-- Apply a list of `(address, value)` writes to a memory, in order (later
writes win). -/
def applyWrites (mem : Nat → Nat) : List (Nat × Nat) → Nat → Nat
  | [] => mem
  | w :: ws => applyWrites (fun x => if x = w.1 then w.2 else mem x) ws

/-- Association-list lookup, modelling `getHooks().find(target)`. -/
def lookupA : List (Nat × HookData) → Nat → Option HookData
  | [], _ => none
  | kv :: t, x => if kv.1 = x then some kv.2 else lookupA t x

/-- Replace the value stored at a key (mutation through the map's
`shared_ptr` value). -/
def updateA : List (Nat × HookData) → Nat → HookData → List (Nat × HookData)
  | [], _, _ => []
  | kv :: t, x, nv => if kv.1 = x then (kv.1, nv) :: t else kv :: updateA t x nv

/-- `getHooks().erase(target)`. -/
def eraseA : List (Nat × HookData) → Nat → List (Nat × HookData)
  | [], _ => []
  | kv :: t, x => if kv.1 = x then t else kv :: eraseA t x

/-- Observable engine interactions and chain-`origin` writes. -/
inductive Ev where
  /-- A call of `shadowhook_hook_func_addr(target, newEntry, &origin)` and
  the engine's response (`none`: failure, null stub returned, out-parameter
  untouched). -/
  | engInstall (target newEntry : Nat) (resp : Option (Nat × Nat))
  /-- A call of `shadowhook_unhook(stub)` and whether the engine succeeded
  (the code ignores this status). -/
  | engUninstall (stub : Nat) (ok : Bool)
  /-- The engine wrote `value` through the `&origin` out-parameter of the
  chain for `target`. -/
  | originWrite (target value : Nat)
deriving DecidableEq, Repr

/-- Registry state: the map behind `getHooks()` plus caller slot memory. -/
structure RegState where
  hooks : List (Nat × HookData)
  mem : Nat → Nat

/-- Result of `memory::hook`: new state, the returned `int`, events. -/
structure HookResult where
  state : RegState
  ret : Int
  events : List Ev

/-- `memory::hook` (Hook.cpp lines 90-140).  `resp` is the engine's response
to the one `shadowhook_hook_func_addr` call the function makes.
Existing chain (lines 115-124): insert the entry with the next id, run
`updateCallList`, then call the engine with the new `start` — the returned
stub is discarded, the engine overwrites `origin`, and the function returns
0 whatever the engine did.  New chain (lines 126-139): call the engine with
`(target, detour)`; a null stub makes the function return -1 with the
registry, every chain and the caller slots untouched; otherwise the chain
(with the single new entry, the returned stub and origin) is wired and
inserted into the map. -/
def hook (st : RegState) (target detour slot priority : Nat)
    (resp : Option (Nat × Nat)) : HookResult :=
  match lookupA st.hooks target with
  | some hd =>
      let nid := hd.hookId + 1
      let hooks1 := insertElem ⟨detour, slot, priority, nid⟩ hd.hooks
      let u := updateCallList hd.origin hooks1
      let mem1 := applyWrites st.mem u.2
      match resp with
      | some sp =>
          ⟨⟨updateA st.hooks target
              { hd with hookId := nid, hooks := hooks1, start := u.1, origin := sp.2 },
            mem1⟩, 0,
            [Ev.engInstall target u.1 (some sp), Ev.originWrite target sp.2]⟩
      | none =>
          ⟨⟨updateA st.hooks target
              { hd with hookId := nid, hooks := hooks1, start := u.1 },
            mem1⟩, 0,
            [Ev.engInstall target u.1 none]⟩
  | none =>
      match resp with
      | some sp =>
          if sp.1 = 0 then
            ⟨st, -1, [Ev.engInstall target detour (some sp), Ev.originWrite target sp.2]⟩
          else
            let hd0 : HookData :=
              { target := target, origin := sp.2, start := detour, stub := sp.1,
                hookId := 1, hooks := [⟨detour, slot, priority, 1⟩] }
            let u := updateCallList hd0.origin hd0.hooks
            ⟨⟨st.hooks ++ [(target, { hd0 with start := u.1 })],
              applyWrites st.mem u.2⟩, 0,
              [Ev.engInstall target detour (some sp), Ev.originWrite target sp.2]⟩
      | none =>
          ⟨st, -1, [Ev.engInstall target detour none]⟩

/-- The `unhook` scan (Hook.cpp lines 154-155): erase the first entry, in
ascending set order, whose `detour` matches; `none` when no entry matches. -/
def removeFirstDetour (detour : Nat) : List HookElement → Option (List HookElement)
  | [] => none
  | e :: es =>
      if e.detour = detour then some es
      else (removeFirstDetour detour es).map (e :: ·)

/-- Result of `memory::unhook`: new state, the returned `bool`, events. -/
structure UnhookResult where
  state : RegState
  ret : Bool
  events : List Ev

/-- `memory::unhook` (Hook.cpp lines 142-171).  Null target or unknown
target or unmatched detour: return `false`, nothing changes.  Otherwise
erase the first matching entry and run `updateCallList`; if the chain became
empty, call `shadowhook_unhook` on the stored stub (status ignored) and
erase the target from the map; otherwise call the engine with the new
`start` (stub discarded, `origin` overwritten on success).  Returns `true`
whatever the engine did. -/
def unhook (st : RegState) (target detour : Nat)
    (respIns : Option (Nat × Nat)) (respUnins : Bool) : UnhookResult :=
  if target = 0 then ⟨st, false, []⟩
  else
    match lookupA st.hooks target with
    | none => ⟨st, false, []⟩
    | some hd =>
        match removeFirstDetour detour hd.hooks with
        | none => ⟨st, false, []⟩
        | some hooks1 =>
            let u := updateCallList hd.origin hooks1
            let mem1 := applyWrites st.mem u.2
            if hooks1.isEmpty then
              ⟨⟨eraseA st.hooks target, mem1⟩, true,
                [Ev.engUninstall hd.stub respUnins]⟩
            else
              match respIns with
              | some sp =>
                  ⟨⟨updateA st.hooks target
                      { hd with hooks := hooks1, start := u.1, origin := sp.2 },
                    mem1⟩, true,
                    [Ev.engInstall target u.1 (some sp), Ev.originWrite target sp.2]⟩
              | none =>
                  ⟨⟨updateA st.hooks target
                      { hd with hooks := hooks1, start := u.1 },
                    mem1⟩, true,
                    [Ev.engInstall target u.1 none]⟩

/-- `memory::unhookAll` (Hook.cpp lines 173-181): uninstall every chain's
stub (statuses ignored, `respUnins` gives the engine's answer per stub) and
clear the map.  The function returns nothing. -/
def unhookAll (st : RegState) (respUnins : Nat → Bool) : RegState × List Ev :=
  (⟨[], st.mem⟩,
   st.hooks.map (fun kv => Ev.engUninstall kv.2.stub (respUnins kv.2.stub)))

/-- One registry operation together with its engine-response oracle. -/
inductive Op where
  | ins (target detour slot priority : Nat) (resp : Option (Nat × Nat))
  | rem (target detour : Nat) (respIns : Option (Nat × Nat)) (respUnins : Bool)
  | remAll (respUnins : Nat → Bool)

/-- Effect of one operation on the registry state. -/
def stepOp (st : RegState) : Op → RegState
  | .ins t d s p r => (hook st t d s p r).state
  | .rem t d ri ru => (unhook st t d ri ru).state
  | .remAll ru => (unhookAll st ru).1

/-- Run a list of operations left to right. -/
def runOps (st : RegState) : List Op → RegState
  | [] => st
  | o :: os => runOps (stepOp st o) os

/-- The initial state: empty registry, all caller slots 0. -/
def st0 : RegState := ⟨[], fun _ => 0⟩

/-- The wiring invariant of a chain, read off the entry list in its
ascending order: each entry's slot holds the next entry's detour and the
last entry's slot holds `origin`. -/
def WiredFrom (origin : Nat) (mem : Nat → Nat) : List HookElement → Prop
  | [] => True
  | [e] => mem e.originalFunc = origin
  | e :: e2 :: es => mem e.originalFunc = e2.detour ∧ WiredFrom origin mem (e2 :: es)

/-- The value `start` receives for a given entry list: the first entry's
detour, or `origin` for an empty list. -/
def headDetour (o : Nat) : List HookElement → Nat
  | [] => o
  | e :: _ => e.detour

/-- One install request against a fixed target: the caller-chosen detour,
slot address and priority of a `hook` call. -/
structure Req where
  detour : Nat
  slot : Nat
  priority : Nat
deriving DecidableEq, Repr

/-- The id-independent part of a `HookElement`. -/
def payload (e : HookElement) : Req := ⟨e.detour, e.originalFunc, e.priority⟩

/-- The entry list obtained by inserting the requests in order, with ids
counting on from `n` (the per-chain `hookId` counter). -/
def buildHooks : List Req → Nat → List HookElement → List HookElement
  | [], _, acc => acc
  | r :: rs, n, acc =>
      buildHooks rs (n + 1) (insertElem ⟨r.detour, r.slot, r.priority, n + 1⟩ acc)

/-- Payload-level insertion after all entries of no greater priority: where
`insertElem` puts an element whose id exceeds every id already present. -/
def insertLEP (r : Req) : List Req → List Req
  | [] => [r]
  | h :: t => if h.priority ≤ r.priority then h :: insertLEP r t else r :: h :: t

/-- Payload-level image of `buildHooks`. -/
def pbuild : List Req → List Req → List Req
  | [], acc => acc
  | r :: rs, acc => pbuild rs (insertLEP r acc)

/-- Payload-level image of `removeFirstDetour`. -/
def removeFirstP (d : Nat) : List Req → Option (List Req)
  | [] => none
  | r :: rs => if r.detour = d then some rs else (removeFirstP d rs).map (r :: ·)

/-- Recognize an engine install call in the event trace. -/
def isEngInstall : Ev → Bool
  | .engInstall _ _ _ => true
  | _ => false

/-- Recognize an engine uninstall call in the event trace. -/
def isEngUninstall : Ev → Bool
  | .engUninstall _ _ => true
  | _ => false

/-- Recognize a write of a chain `origin` field in the event trace. -/
def isOriginWrite : Ev → Bool
  | .originWrite _ _ => true
  | _ => false

/-- Run a sequence of install requests against one target `T`, the engine
answering every install with stub 1 and previous entry point `p` (the
idempotent engine of the specification: re-installing over its own
redirection keeps reporting the same pre-hook entry point). -/
def runInstalls (T p : Nat) : RegState → List Req → RegState
  | st, [] => st
  | st, r :: rs =>
      runInstalls T p (hook st T r.detour r.slot r.priority (some (1, p))).state rs

/-- Each listed entry's slot receives exactly one write in `ws`, holding its
final chain value: the next entry's detour, `origin` for the last entry. -/
def SlotWrites (origin : Nat) (ws : List (Nat × Nat)) : List HookElement → Prop
  | [] => True
  | [e] => ws.filter (fun w => w.1 = e.originalFunc) = [(e.originalFunc, origin)]
  | e :: e2 :: es =>
      ws.filter (fun w => w.1 = e.originalFunc) = [(e.originalFunc, e2.detour)] ∧
      SlotWrites origin ws (e2 :: es)

/-- Strict order of `HookElement::operator<` as a proposition. -/
def eltLt (a b : HookElement) : Prop := HookElement.lt a b = true

instance : DecidablePred fun p : HookElement × HookElement => eltLt p.1 p.2 :=
  fun p => by unfold eltLt; infer_instance

instance (a b : HookElement) : Decidable (eltLt a b) := by
  unfold eltLt; infer_instance

/-- A chain's entry list in ascending `(priority, id)` order. -/
def SortedElems (l : List HookElement) : Prop := List.Pairwise eltLt l

instance (l : List HookElement) : Decidable (SortedElems l) := by
  unfold SortedElems; infer_instance

/-- Structural well-formedness of the registry map: target keys are unique
and no registered chain has an empty entry set. -/
def RegInv (st : RegState) : Prop :=
  (st.hooks.map Prod.fst).Nodup ∧ ∀ kv ∈ st.hooks, kv.2.hooks ≠ []

end HookModel

namespace HookModel

/-- State of the `resolveIdentifier` statics (Hook.cpp lines 227-229). -/
structure ResolverState where
  inited : Bool
  base : Nat
  size : Nat
deriving DecidableEq, Repr

/-- The statics before the first call. -/
def rs0 : ResolverState := ⟨false, 0, 0⟩

/-- `memory::resolveIdentifier` (Hook.cpp lines 226-255).  `scan` is the
current outcome a `/proc/self/maps` scan would give per module name (the
pair `getLibBase`, `getLibSize`); `matcher` is `resolveSignature` with 0 for
failure.  On the first call the statics are filled from one scan of
`"libminecraftpe.so"`; afterwards the cached values are used unconditionally.
A zero cached base or size makes every call return 0.  The last component
lists the module names scanned during this call. -/
def resolveIdentifier (rs : ResolverState) (scan : String → Nat × Nat)
    (matcher : Nat → Nat → String → Nat) (identifier : String) :
    ResolverState × Nat × List String :=
  let rs1 : ResolverState :=
    if rs.inited then rs
    else ⟨true, (scan "libminecraftpe.so").1, (scan "libminecraftpe.so").2⟩
  let scanned : List String := if rs.inited then [] else ["libminecraftpe.so"]
  if rs1.base = 0 ∨ rs1.size = 0 then (rs1, 0, scanned)
  else (rs1, matcher rs1.base rs1.size identifier, scanned)

end HookModel

namespace HookModel

/-! ## Wiring produced by `updateCallList` -/

theorem applyWrites_cons (mem : Nat → Nat) (w : Nat × Nat) (ws : List (Nat × Nat)) :
    applyWrites mem (w :: ws) = applyWrites (fun x => if x = w.1 then w.2 else mem x) ws :=
  rfl

/-- Effect of the tail loop of `updateCallList`: frame on untouched slots,
the incoming slot `cur` receives the first detour of the remainder (or
`origin`), and the remainder ends up wired. -/
theorem uclGo_spec (o : Nat) (es : List HookElement) :
    ∀ (cur : Nat) (mem0 : Nat → Nat),
      cur ∉ es.map (·.originalFunc) →
      (es.map (·.originalFunc)).Nodup →
      (∀ x, x ≠ cur → x ∉ es.map (·.originalFunc) →
          applyWrites mem0 ((uclGo es cur).1 ++ [((uclGo es cur).2, o)]) x = mem0 x) ∧
      applyWrites mem0 ((uclGo es cur).1 ++ [((uclGo es cur).2, o)]) cur
        = headDetour o es ∧
      WiredFrom o (applyWrites mem0 ((uclGo es cur).1 ++ [((uclGo es cur).2, o)])) es := by
  induction es with
  | nil =>
      intro cur mem0 _ _
      refine ⟨fun x hx _ => ?_, ?_, trivial⟩
      · simp [uclGo, applyWrites, hx]
      · simp [uclGo, applyWrites, headDetour]
  | cons e es ih =>
      intro cur mem0 hcur hnd
      have hcur1 : cur ≠ e.originalFunc ∧ cur ∉ es.map (·.originalFunc) := by
        simpa using hcur
      have hnd1 : e.originalFunc ∉ es.map (·.originalFunc) ∧
          (es.map (·.originalFunc)).Nodup := by
        simpa [List.nodup_cons] using hnd
      obtain ⟨frame, hval, hw⟩ :=
        ih e.originalFunc (fun x => if x = cur then e.detour else mem0 x) hnd1.1 hnd1.2
      have key : applyWrites mem0 ((uclGo (e :: es) cur).1 ++ [((uclGo (e :: es) cur).2, o)])
          = applyWrites (fun x => if x = cur then e.detour else mem0 x)
              ((uclGo es e.originalFunc).1 ++ [((uclGo es e.originalFunc).2, o)]) := by
        simp [uclGo, applyWrites_cons]
      refine ⟨?_, ?_, ?_⟩
      · intro x hxcur hxmem
        have hx1 : x ≠ e.originalFunc ∧ x ∉ es.map (·.originalFunc) := by
          simpa using hxmem
        rw [key, frame x hx1.1 hx1.2]
        simp [hxcur]
      · rw [key, frame cur hcur1.1 hcur1.2]
        simp [headDetour]
      · rw [key]
        cases es with
        | nil =>
            show _ = o
            simpa [headDetour] using hval
        | cons e2 es2 =>
            exact ⟨by simpa [headDetour] using hval, hw⟩

/-- `updateCallList` (with slot addresses pairwise distinct) establishes the
wiring invariant, only touches the entries' slots, and computes `start` as
the first entry's detour (`origin` for an empty chain). -/
theorem updateCallList_spec (o : Nat) (es : List HookElement) (mem : Nat → Nat)
    (hnd : (es.map (·.originalFunc)).Nodup) :
    (∀ x, x ∉ es.map (·.originalFunc) →
        applyWrites mem (updateCallList o es).2 x = mem x) ∧
    WiredFrom o (applyWrites mem (updateCallList o es).2) es ∧
    (updateCallList o es).1 = headDetour o es := by
  cases es with
  | nil =>
      exact ⟨fun x _ => rfl, trivial, rfl⟩
  | cons e es =>
      have hnd1 : e.originalFunc ∉ es.map (·.originalFunc) ∧
          (es.map (·.originalFunc)).Nodup := by
        simpa [List.nodup_cons] using hnd
      obtain ⟨frame, hval, hw⟩ :=
        uclGo_spec o es e.originalFunc (fun x => if x = e.originalFunc then o else mem x)
          hnd1.1 hnd1.2
      have key : applyWrites mem (updateCallList o (e :: es)).2
          = applyWrites (fun x => if x = e.originalFunc then o else mem x)
              ((uclGo es e.originalFunc).1 ++ [((uclGo es e.originalFunc).2, o)]) := by
        simp [updateCallList, applyWrites_cons]
      refine ⟨?_, ?_, rfl⟩
      · intro x hx
        have hx1 : x ≠ e.originalFunc ∧ x ∉ es.map (·.originalFunc) := by
          simpa using hx
        rw [key, frame x hx1.1 hx1.2]
        simp [hx1.1]
      · rw [key]
        cases es with
        | nil =>
            show _ = o
            simpa [headDetour] using hval
        | cons e2 es2 =>
            exact ⟨by simpa [headDetour] using hval, hw⟩

end HookModel

namespace HookModel

/-! ## The entry order and `std::set` insertion -/

theorem eltLt_iff {a b : HookElement} :
    eltLt a b ↔ a.priority < b.priority ∨ (a.priority = b.priority ∧ a.id < b.id) := by
  unfold eltLt HookElement.lt
  by_cases h : a.priority = b.priority <;> simp [h]

theorem eltLt_trans {a b c : HookElement} (h1 : eltLt a b) (h2 : eltLt b c) :
    eltLt a c := by
  rw [eltLt_iff] at h1 h2 ⊢
  rcases h1 with h1 | ⟨h1, h1'⟩ <;> rcases h2 with h2 | ⟨h2, h2'⟩
  · exact Or.inl (h1.trans h2)
  · exact Or.inl (h2 ▸ h1)
  · exact Or.inl (h1 ▸ h2)
  · exact Or.inr ⟨h1.trans h2, h1'.trans h2'⟩

theorem eltLt_of_bool {a b : HookElement} (h : HookElement.lt a b = true) : eltLt a b := h

theorem key_eq_of_not_lt {a b : HookElement} (h1 : ¬ HookElement.lt a b = true)
    (h2 : ¬ HookElement.lt b a = true) : a.priority = b.priority ∧ a.id = b.id := by
  have h1' : ¬ eltLt a b := h1
  have h2' : ¬ eltLt b a := h2
  rw [eltLt_iff] at h1' h2'
  omega

theorem mem_of_mem_insertElem {e : HookElement} {l : List HookElement} :
    ∀ {a : HookElement}, a ∈ insertElem e l → a = e ∨ a ∈ l := by
  induction l with
  | nil =>
      intro a h
      simpa [insertElem] using h
  | cons b t ih =>
      intro a h
      unfold insertElem at h
      by_cases h1 : HookElement.lt e b
      · simp only [h1, if_true, List.mem_cons] at h
        rcases h with h | h | h
        · exact Or.inl h
        · exact Or.inr (by simp [h])
        · exact Or.inr (by simp [h])
      · rw [if_neg h1] at h
        by_cases h2 : HookElement.lt b e
        · rw [if_pos h2] at h
          rcases List.mem_cons.mp h with h | h
          · exact Or.inr (by simp [h])
          · rcases ih h with h' | h'
            · exact Or.inl h'
            · exact Or.inr (by simp [h'])
        · rw [if_neg h2] at h
          exact Or.inr h

theorem mem_insertElem_of_mem {e : HookElement} {l : List HookElement} :
    ∀ {a : HookElement}, a ∈ l → a ∈ insertElem e l := by
  induction l with
  | nil =>
      intro a h
      simp at h
  | cons b t ih =>
      intro a h
      unfold insertElem
      by_cases h1 : HookElement.lt e b
      · simp [h1, h]
      · by_cases h2 : HookElement.lt b e
        · rcases List.mem_cons.mp h with h' | h'
          · simp [h1, h2, h']
          · simp [h1, h2, ih h']
        · simpa [h1, h2] using h

theorem pairwise_insertElem {e : HookElement} {l : List HookElement}
    (hl : List.Pairwise eltLt l) : List.Pairwise eltLt (insertElem e l) := by
  induction l with
  | nil => simp [insertElem]
  | cons b t ih =>
      rcases List.pairwise_cons.mp hl with ⟨hb, ht⟩
      unfold insertElem
      by_cases h1 : HookElement.lt e b
      · simp only [h1, if_true]
        refine List.pairwise_cons.mpr ⟨?_, hl⟩
        intro a ha
        rcases List.mem_cons.mp ha with ha | ha
        · exact ha ▸ eltLt_of_bool h1
        · exact eltLt_trans (eltLt_of_bool h1) (hb a ha)
      · simp only [h1, if_false]
        by_cases h2 : HookElement.lt b e
        · simp only [h2, if_true]
          refine List.pairwise_cons.mpr ⟨?_, ih ht⟩
          intro a ha
          rcases mem_of_mem_insertElem ha with ha | ha
          · exact ha ▸ eltLt_of_bool h2
          · exact hb a ha
        · simpa [h2] using hl

theorem insertElem_ne_nil (e : HookElement) (l : List HookElement) :
    insertElem e l ≠ [] := by
  cases l with
  | nil => simp [insertElem]
  | cons b t =>
      unfold insertElem
      by_cases h1 : HookElement.lt e b
      · simp [h1]
      · by_cases h2 : HookElement.lt b e <;> simp [h1, h2]

/-! ## `removeFirstDetour` -/

theorem removeFirstDetour_sublist {d : Nat} {l l' : List HookElement}
    (h : removeFirstDetour d l = some l') : l'.Sublist l := by
  induction l generalizing l' with
  | nil => simp [removeFirstDetour] at h
  | cons e es ih =>
      unfold removeFirstDetour at h
      by_cases hd : e.detour = d
      · simp only [hd, if_true] at h
        cases h
        exact List.sublist_cons_self e es
  
      · simp only [hd, if_false, Option.map_eq_some'] at h
        obtain ⟨l'', h1, h2⟩ := h
        exact h2 ▸ (ih h1).cons₂ e

theorem removeFirstDetour_eq_none {d : Nat} {l : List HookElement} :
    removeFirstDetour d l = none ↔ ∀ y ∈ l, y.detour ≠ d := by
  induction l with
  | nil => simp [removeFirstDetour]
  | cons e es ih =>
      unfold removeFirstDetour
      by_cases hd : e.detour = d
      · simp [hd]
      · simp [hd, ih]

theorem removeFirstDetour_decomp {d : Nat} {l l' : List HookElement}
    (h : removeFirstDetour d l = some l') :
    ∃ u x v, l = u ++ x :: v ∧ l' = u ++ v ∧ x.detour = d ∧ ∀ y ∈ u, y.detour ≠ d := by
  induction l generalizing l' with
  | nil => simp [removeFirstDetour] at h
  | cons e es ih =>
      unfold removeFirstDetour at h
      by_cases hd : e.detour = d
      · simp only [hd, if_true] at h
        cases h
        exact ⟨[], e, es, rfl, rfl, hd, by simp⟩
      · simp only [hd, if_false, Option.map_eq_some'] at h
        obtain ⟨l'', h1, h2⟩ := h
        obtain ⟨u, x, v, e1, e2, e3, e4⟩ := ih h1
        refine ⟨e :: u, x, v, by simp [e1], by rw [← h2, e2]; simp, e3, ?_⟩
        intro y hy
        rcases List.mem_cons.mp hy with hy | hy
        · exact hy ▸ hd
        · exact e4 y hy

theorem removeFirstDetour_append {d : Nat} {u v : List HookElement}
    {x : HookElement} (hu : ∀ y ∈ u, y.detour ≠ d) (hx : x.detour = d) :
    removeFirstDetour d (u ++ x :: v) = some (u ++ v) := by
  induction u with
  | nil => simp [removeFirstDetour, hx]
  | cons e t ih =>
      have he : e.detour ≠ d := hu e (by simp)
      have ht : ∀ y ∈ t, y.detour ≠ d := fun y hy => hu y (by simp [hy])
      simp [removeFirstDetour, he, ih ht]

/-! ## Association-list facts about the registry map -/

theorem lookupA_eq_none_of_not_mem {l : List (Nat × HookData)} {k : Nat}
    (h : k ∉ l.map Prod.fst) : lookupA l k = none := by
  induction l with
  | nil => rfl
  | cons kv t ih =>
      simp only [List.map_cons, List.mem_cons] at h
      push_neg at h
      simp [lookupA, Ne.symm h.1, ih h.2]

theorem mem_of_lookupA {l : List (Nat × HookData)} {k : Nat} {hd : HookData}
    (h : lookupA l k = some hd) : (k, hd) ∈ l := by
  induction l with
  | nil => simp [lookupA] at h
  | cons kv t ih =>
      unfold lookupA at h
      by_cases hk : kv.1 = k
      · simp only [hk, if_true, Option.some.injEq] at h
        refine List.mem_cons.mpr (Or.inl ?_)
        cases kv
        simp_all
      · simp only [hk, if_false] at h
        exact List.mem_cons.mpr (Or.inr (ih h))

theorem lookupA_updateA_self {l : List (Nat × HookData)} {k : Nat}
    {hd v : HookData} (h : lookupA l k = some hd) :
    lookupA (updateA l k v) k = some v := by
  induction l with
  | nil => simp [lookupA] at h
  | cons kv t ih =>
      unfold lookupA at h
      by_cases hk : kv.1 = k
      · simp [updateA, hk, lookupA]
      · simp only [hk, if_false] at h
        simp [updateA, hk, lookupA, ih h]

theorem lookupA_updateA_ne {l : List (Nat × HookData)} {k k' : Nat}
    {v : HookData} (h : k ≠ k') : lookupA (updateA l k v) k' = lookupA l k' := by
  induction l with
  | nil => rfl
  | cons kv t ih =>
      unfold updateA
      by_cases hk : kv.1 = k
      · simp [lookupA, hk, h, ih]
      · simp only [hk, if_false]
        unfold lookupA
        by_cases hk' : kv.1 = k' <;> simp [hk', ih]

theorem lookupA_eraseA_self {l : List (Nat × HookData)} {k : Nat}
    (hnd : (l.map Prod.fst).Nodup) : lookupA (eraseA l k) k = none := by
  induction l with
  | nil => rfl
  | cons kv t ih =>
      simp only [List.map_cons, List.nodup_cons] at hnd
      unfold eraseA
      by_cases hk : kv.1 = k
      · simp only [hk, if_true]
        exact lookupA_eq_none_of_not_mem (hk ▸ hnd.1)
      · simp [lookupA, hk, ih hnd.2]

theorem mem_updateA {l : List (Nat × HookData)} {k : Nat} {v : HookData} :
    ∀ kv ∈ updateA l k v, kv ∈ l ∨ kv = (k, v) := by
  induction l with
  | nil => simp [updateA]
  | cons kv0 t ih =>
      intro kv hkv
      unfold updateA at hkv
      by_cases hk : kv0.1 = k
      · simp only [hk, if_true, List.mem_cons] at hkv
        rcases hkv with h | h
        · exact Or.inr (by simp [h, hk])
        · exact Or.inl (List.mem_cons.mpr (Or.inr h))
      · simp only [hk, if_false, List.mem_cons] at hkv
        rcases hkv with h | h
        · exact Or.inl (by simp [h])
        · rcases ih kv h with h' | h'
          · exact Or.inl (List.mem_cons.mpr (Or.inr h'))
          · exact Or.inr h'

theorem mem_eraseA {l : List (Nat × HookData)} {k : Nat} :
    ∀ kv ∈ eraseA l k, kv ∈ l := by
  induction l with
  | nil => simp [eraseA]
  | cons kv0 t ih =>
      intro kv hkv
      unfold eraseA at hkv
      by_cases hk : kv0.1 = k
      · simp only [hk, if_true] at hkv
        exact List.mem_cons.mpr (Or.inr hkv)
      · rw [if_neg hk] at hkv
        rcases List.mem_cons.mp hkv with h | h
        · exact List.mem_cons.mpr (Or.inl h)
        · exact List.mem_cons.mpr (Or.inr (ih kv h))

theorem keys_updateA (l : List (Nat × HookData)) (k : Nat) (v : HookData) :
    (updateA l k v).map Prod.fst = l.map Prod.fst := by
  induction l with
  | nil => rfl
  | cons kv t ih =>
      unfold updateA
      by_cases hk : kv.1 = k <;> simp [hk, ih]

theorem keys_eraseA_sublist (l : List (Nat × HookData)) (k : Nat) :
    ((eraseA l k).map Prod.fst).Sublist (l.map Prod.fst) := by
  induction l with
  | nil => exact List.Sublist.refl _
  | cons kv t ih =>
      unfold eraseA
      by_cases hk : kv.1 = k
      · simp only [hk, if_true, List.map_cons]
        exact (List.sublist_cons_self _ _)
      · simpa [hk] using ih.cons₂ kv.1

end HookModel

namespace HookModel

/-! ## Unfolded behaviour of the registry operations -/

theorem hook_eq_existing (st : RegState) (target d s p : Nat) (sp : Nat × Nat)
    {hd : HookData} (h : lookupA st.hooks target = some hd) :
    hook st target d s p (some sp) =
      ⟨⟨updateA st.hooks target
          { hd with
            hookId := hd.hookId + 1
            hooks := insertElem ⟨d, s, p, hd.hookId + 1⟩ hd.hooks
            start := (updateCallList hd.origin
              (insertElem ⟨d, s, p, hd.hookId + 1⟩ hd.hooks)).1
            origin := sp.2 },
        applyWrites st.mem (updateCallList hd.origin
          (insertElem ⟨d, s, p, hd.hookId + 1⟩ hd.hooks)).2⟩,
       0,
       [Ev.engInstall target (updateCallList hd.origin
          (insertElem ⟨d, s, p, hd.hookId + 1⟩ hd.hooks)).1 (some sp),
        Ev.originWrite target sp.2]⟩ := by
  simp [hook, h]

theorem hook_eq_existing_fail (st : RegState) (target d s p : Nat)
    {hd : HookData} (h : lookupA st.hooks target = some hd) :
    hook st target d s p none =
      ⟨⟨updateA st.hooks target
          { hd with
            hookId := hd.hookId + 1
            hooks := insertElem ⟨d, s, p, hd.hookId + 1⟩ hd.hooks
            start := (updateCallList hd.origin
              (insertElem ⟨d, s, p, hd.hookId + 1⟩ hd.hooks)).1 },
        applyWrites st.mem (updateCallList hd.origin
          (insertElem ⟨d, s, p, hd.hookId + 1⟩ hd.hooks)).2⟩,
       0,
       [Ev.engInstall target (updateCallList hd.origin
          (insertElem ⟨d, s, p, hd.hookId + 1⟩ hd.hooks)).1 none]⟩ := by
  simp [hook, h]

theorem hook_eq_new_ok (st : RegState) (target d s p : Nat) (sp : Nat × Nat)
    (h : lookupA st.hooks target = none) (hsp : sp.1 ≠ 0) :
    hook st target d s p (some sp) =
      ⟨⟨st.hooks ++
          [(target,
            { target := target, origin := sp.2,
              start := (updateCallList sp.2 [⟨d, s, p, 1⟩]).1,
              stub := sp.1, hookId := 1, hooks := [⟨d, s, p, 1⟩] })],
        applyWrites st.mem (updateCallList sp.2 [⟨d, s, p, 1⟩]).2⟩,
       0,
       [Ev.engInstall target d (some sp), Ev.originWrite target sp.2]⟩ := by
  simp [hook, h, hsp]

theorem hook_eq_new_fail (st : RegState) (target d s p : Nat)
    (h : lookupA st.hooks target = none) :
    hook st target d s p none = ⟨st, -1, [Ev.engInstall target d none]⟩ := by
  simp [hook, h]

theorem hook_eq_new_nullstub (st : RegState) (target d s p : Nat) (sp : Nat × Nat)
    (h : lookupA st.hooks target = none) (hsp : sp.1 = 0) :
    hook st target d s p (some sp) =
      ⟨st, -1, [Ev.engInstall target d (some sp), Ev.originWrite target sp.2]⟩ := by
  simp [hook, h, hsp]

theorem unhook_eq_nulltarget (st : RegState) (d : Nat)
    (ri : Option (Nat × Nat)) (ru : Bool) :
    unhook st 0 d ri ru = ⟨st, false, []⟩ := by
  simp [unhook]

theorem unhook_eq_notarget (st : RegState) (target d : Nat)
    (ri : Option (Nat × Nat)) (ru : Bool) (ht : target ≠ 0)
    (h : lookupA st.hooks target = none) :
    unhook st target d ri ru = ⟨st, false, []⟩ := by
  simp [unhook, ht, h]

theorem unhook_eq_nodetour (st : RegState) (target d : Nat)
    (ri : Option (Nat × Nat)) (ru : Bool) (ht : target ≠ 0)
    {hd : HookData} (h : lookupA st.hooks target = some hd)
    (hr : removeFirstDetour d hd.hooks = none) :
    unhook st target d ri ru = ⟨st, false, []⟩ := by
  simp [unhook, ht, h, hr]

theorem unhook_eq_emptied (st : RegState) (target d : Nat)
    (ri : Option (Nat × Nat)) (ru : Bool) (ht : target ≠ 0)
    {hd : HookData} (h : lookupA st.hooks target = some hd)
    (hr : removeFirstDetour d hd.hooks = some []) :
    unhook st target d ri ru =
      ⟨⟨eraseA st.hooks target, st.mem⟩, true, [Ev.engUninstall hd.stub ru]⟩ := by
  simp [unhook, ht, h, hr, updateCallList, applyWrites]

theorem unhook_eq_rest (st : RegState) (target d : Nat) (sp : Nat × Nat)
    (ru : Bool) (ht : target ≠ 0)
    {hd : HookData} {hooks1 : List HookElement}
    (h : lookupA st.hooks target = some hd)
    (hr : removeFirstDetour d hd.hooks = some hooks1) (hne : hooks1 ≠ []) :
    unhook st target d (some sp) ru =
      ⟨⟨updateA st.hooks target
          { hd with
            hooks := hooks1
            start := (updateCallList hd.origin hooks1).1
            origin := sp.2 },
        applyWrites st.mem (updateCallList hd.origin hooks1).2⟩,
       true,
       [Ev.engInstall target (updateCallList hd.origin hooks1).1 (some sp),
        Ev.originWrite target sp.2]⟩ := by
  simp [unhook, ht, h, hr, hne]

theorem unhook_eq_rest_fail (st : RegState) (target d : Nat)
    (ru : Bool) (ht : target ≠ 0)
    {hd : HookData} {hooks1 : List HookElement}
    (h : lookupA st.hooks target = some hd)
    (hr : removeFirstDetour d hd.hooks = some hooks1) (hne : hooks1 ≠ []) :
    unhook st target d none ru =
      ⟨⟨updateA st.hooks target
          { hd with
            hooks := hooks1
            start := (updateCallList hd.origin hooks1).1 },
        applyWrites st.mem (updateCallList hd.origin hooks1).2⟩,
       true,
       [Ev.engInstall target (updateCallList hd.origin hooks1).1 none]⟩ := by
  simp [unhook, ht, h, hr, hne]

end HookModel

namespace HookModel

/-! ## Write counts of `updateCallList` -/

theorem uclGo_length (es : List HookElement) : ∀ cur, (uclGo es cur).1.length = es.length := by
  induction es with
  | nil => intro cur; rfl
  | cons e es ih => intro cur; simp [uclGo, ih]

theorem uclGo_fst_mem {es : List HookElement} :
    ∀ {cur : Nat} {w : Nat × Nat}, w ∈ (uclGo es cur).1 →
      w.1 ∈ cur :: es.map (·.originalFunc) := by
  induction es with
  | nil =>
      intro cur w h
      simp [uclGo] at h
  | cons e es ih =>
      intro cur w h
      simp only [uclGo, List.mem_cons] at h
      rcases h with h | h
      · simp [h]
      · have := ih h
        simp only [List.mem_cons] at this ⊢
        tauto

theorem uclGo_snd_mem (es : List HookElement) :
    ∀ cur, (uclGo es cur).2 ∈ cur :: es.map (·.originalFunc) := by
  induction es with
  | nil => intro cur; simp [uclGo]
  | cons e es ih =>
      intro cur
      have := ih e.originalFunc
      simp only [uclGo, List.mem_cons] at this ⊢
      tauto

theorem slotWrites_cons {o : Nat} {a : Nat × Nat} {ws : List (Nat × Nat)} :
    ∀ {es : List HookElement}, a.1 ∉ es.map (·.originalFunc) →
      SlotWrites o ws es → SlotWrites o (a :: ws) es := by
  intro es
  induction es with
  | nil => intro _ _; trivial
  | cons e rest ih =>
      intro ha hsw
      have ha1 : a.1 ≠ e.originalFunc ∧ a.1 ∉ rest.map (·.originalFunc) := by
        simpa using ha
      cases rest with
      | nil =>
          show (a :: ws).filter (fun w => w.1 = e.originalFunc) = [(e.originalFunc, o)]
          have hf : (a :: ws).filter (fun w => w.1 = e.originalFunc)
              = ws.filter (fun w => w.1 = e.originalFunc) := by
            simp [List.filter_cons, ha1.1]
          rw [hf]
          exact hsw
      | cons e2 rest2 =>
          obtain ⟨h1, h2⟩ := hsw
          refine ⟨?_, ih ha1.2 h2⟩
          have hf : (a :: ws).filter (fun w => w.1 = e.originalFunc)
              = ws.filter (fun w => w.1 = e.originalFunc) := by
            simp [List.filter_cons, ha1.1]
          rw [hf]
          exact h1

theorem uclGo_filter (o : Nat) (es : List HookElement) :
    ∀ (cur : Nat), cur ∉ es.map (·.originalFunc) →
      (es.map (·.originalFunc)).Nodup →
      ((uclGo es cur).1 ++ [((uclGo es cur).2, o)]).filter (fun w => w.1 = cur)
          = [(cur, headDetour o es)] ∧
      SlotWrites o ((uclGo es cur).1 ++ [((uclGo es cur).2, o)]) es := by
  induction es with
  | nil =>
      intro cur _ _
      constructor
      · simp [uclGo, headDetour, List.filter_cons]
      · trivial
  | cons e rest ih =>
      intro cur hcur hnd
      have hcur1 : cur ≠ e.originalFunc ∧ cur ∉ rest.map (·.originalFunc) := by
        simpa using hcur
      have hnd1 : e.originalFunc ∉ rest.map (·.originalFunc) ∧
          (rest.map (·.originalFunc)).Nodup := by
        simpa [List.nodup_cons] using hnd
      obtain ⟨hfiltIH, hswIH⟩ := ih e.originalFunc hnd1.1 hnd1.2
      have hWnil : ((uclGo rest e.originalFunc).1 ++ [((uclGo rest e.originalFunc).2, o)]).filter
          (fun w => w.1 = cur) = [] := by
        refine List.filter_eq_nil_iff.mpr ?_
        intro w hw
        simp only [List.mem_append, List.mem_singleton] at hw
        have hw1 : w.1 ∈ e.originalFunc :: rest.map (·.originalFunc) := by
          rcases hw with hw | hw
          · exact uclGo_fst_mem hw
          · rw [hw]
            exact uclGo_snd_mem rest e.originalFunc
        simp only [List.mem_cons] at hw1
        simp only [decide_eq_true_eq]
        rcases hw1 with hw1 | hw1
        · exact fun hc => hcur1.1 (hc ▸ hw1 ▸ rfl)
        · exact fun hc => hcur1.2 (hc ▸ hw1)
  
      have heq : (uclGo (e :: rest) cur).1 ++ [((uclGo (e :: rest) cur).2, o)]
          = (cur, e.detour) ::
            ((uclGo rest e.originalFunc).1 ++ [((uclGo rest e.originalFunc).2, o)]) := by
        simp [uclGo]
      rw [heq]
      constructor
      · simp [List.filter_cons, hWnil, headDetour]
      · have hskip : ((cur, e.detour) ::
            ((uclGo rest e.originalFunc).1 ++ [((uclGo rest e.originalFunc).2, o)])).filter
              (fun w => w.1 = e.originalFunc)
            = ((uclGo rest e.originalFunc).1 ++
                [((uclGo rest e.originalFunc).2, o)]).filter (fun w => w.1 = e.originalFunc) := by
          simp [List.filter_cons, hcur1.1]
        cases rest with
        | nil =>
            show _ = [(e.originalFunc, o)]
            rw [hskip, hfiltIH]
            simp [headDetour]
        | cons e2 rest2 =>
            refine ⟨?_, slotWrites_cons (by simpa using hcur1.2) hswIH⟩
            rw [hskip, hfiltIH]
            simp [headDetour]

theorem updateCallList_filter (o : Nat) (e : HookElement) (rest : List HookElement)
    (hnd : ((e :: rest).map (·.originalFunc)).Nodup) :
    (updateCallList o (e :: rest)).2.length = (e :: rest).length + 1 ∧
    (updateCallList o (e :: rest)).2.filter (fun w => w.1 = e.originalFunc)
      = [(e.originalFunc, o), (e.originalFunc, headDetour o rest)] ∧
    SlotWrites o (updateCallList o (e :: rest)).2 rest := by
  have hnd1 : e.originalFunc ∉ rest.map (·.originalFunc) ∧
      (rest.map (·.originalFunc)).Nodup := by
    simpa [List.nodup_cons] using hnd
  obtain ⟨hfilt, hsw⟩ := uclGo_filter o rest e.originalFunc hnd1.1 hnd1.2
  have heq : (updateCallList o (e :: rest)).2
      = (e.originalFunc, o) ::
        ((uclGo rest e.originalFunc).1 ++ [((uclGo rest e.originalFunc).2, o)]) := by
    simp [updateCallList]
  refine ⟨?_, ?_, ?_⟩
  · rw [heq]
    simp [uclGo_length]
  · rw [heq]
    simp [List.filter_cons, hfilt]
  · rw [heq]
    exact slotWrites_cons (by simpa using hnd1.1) hsw

end HookModel

namespace HookModel

/-! ## Further registry-map facts -/

theorem lookupA_append_self {l : List (Nat × HookData)} {k : Nat} (v : HookData)
    (h : lookupA l k = none) : lookupA (l ++ [(k, v)]) k = some v := by
  induction l with
  | nil => simp [lookupA]
  | cons kv t ih =>
      simp only [lookupA] at h
      by_cases hk : kv.1 = k
      · simp [hk] at h
      · rw [List.cons_append]
        simp only [lookupA, hk, if_false]
        exact ih (by simpa [hk] using h)

theorem eltLt_priority_le {a b : HookElement} (h : eltLt a b) :
    a.priority ≤ b.priority := by
  rw [eltLt_iff] at h
  omega

/-! ## Claims -/

/-- C6, counterexample: on a chain of 2 entries (slots 1 and 2, origin 99),
`updateCallList` performs 3 slot writes, not 2, and the head entry's slot
first receives the transient value 99 (the origin) before its final value
20 — refuting "n slot writes in total, each slot receiving only its final
value". -/
theorem C6_counterexample :
    (updateCallList 99 [⟨10, 1, 0, 1⟩, ⟨20, 2, 1, 2⟩]).2.length = 3 ∧
    ([⟨10, 1, 0, 1⟩, ⟨20, 2, 1, 2⟩] : List HookElement).length = 2 ∧
    (updateCallList 99 [⟨10, 1, 0, 1⟩, ⟨20, 2, 1, 2⟩]).2.filter (fun w => w.1 = 1)
      = [(1, 99), (1, 20)] := by
  decide

/-- C6, amended: a single `updateCallList` pass over a chain of n ≥ 1
entries with pairwise distinct slots performs n+1 slot writes: the head
entry's slot is written twice — first with `origin`, then with its final
value — every other entry's slot exactly once with its final value; no
address outside the entries' slots is affected, and the only further effect
is computing `start` (the head detour).  An empty chain gets no writes. -/
theorem C6_slot_writes :
    (∀ o : Nat, (updateCallList o []).2 = []) ∧
    (∀ (o : Nat) (e : HookElement) (rest : List HookElement) (mem : Nat → Nat),
      ((e :: rest).map (·.originalFunc)).Nodup →
      (updateCallList o (e :: rest)).2.length = (e :: rest).length + 1 ∧
      (updateCallList o (e :: rest)).2.filter (fun w => w.1 = e.originalFunc)
        = [(e.originalFunc, o), (e.originalFunc, headDetour o rest)] ∧
      SlotWrites o (updateCallList o (e :: rest)).2 rest ∧
      (∀ x, x ∉ (e :: rest).map (·.originalFunc) →
        applyWrites mem (updateCallList o (e :: rest)).2 x = mem x) ∧
      (updateCallList o (e :: rest)).1 = e.detour) := by
  constructor
  · intro o
    rfl
  · intro o e rest mem hnd
    obtain ⟨hlen, hfilt, hsw⟩ := updateCallList_filter o e rest hnd
    obtain ⟨hframe, _, _⟩ := updateCallList_spec o (e :: rest) mem hnd
    exact ⟨hlen, hfilt, hsw, hframe, rfl⟩

/-- C6 witness: the amended statement evaluated on the concrete two-entry
chain of the counterexample. -/
theorem C6_slot_writes_witness :
    (updateCallList 99 [⟨10, 1, 0, 1⟩, ⟨20, 2, 1, 2⟩]).2.length
        = ([⟨10, 1, 0, 1⟩, ⟨20, 2, 1, 2⟩] : List HookElement).length + 1 ∧
    (updateCallList 99 [⟨10, 1, 0, 1⟩, ⟨20, 2, 1, 2⟩]).2.filter (fun w => w.1 = 1)
        = [(1, 99), (1, 20)] ∧
    SlotWrites 99 (updateCallList 99 [⟨10, 1, 0, 1⟩, ⟨20, 2, 1, 2⟩]).2 [⟨20, 2, 1, 2⟩] ∧
    (∀ x, x ∉ ([⟨10, 1, 0, 1⟩, ⟨20, 2, 1, 2⟩] : List HookElement).map (·.originalFunc) →
      applyWrites (fun _ => 0) (updateCallList 99 [⟨10, 1, 0, 1⟩, ⟨20, 2, 1, 2⟩]).2 x
        = (fun _ => (0 : Nat)) x) ∧
    (updateCallList 99 [⟨10, 1, 0, 1⟩, ⟨20, 2, 1, 2⟩]).1 = 10 := by
  have h := C6_slot_writes.2 99 ⟨10, 1, 0, 1⟩ [⟨20, 2, 1, 2⟩] (fun _ => 0) (by decide)
  simpa [headDetour] using h

/-- C1: after every completed install (into an existing chain or creating
one) and every remove that leaves the chain non-empty — assuming the
engine's re-install response reports the chain's recorded origin again, as
the specification's idempotent-engine contract states, and the entries'
slots are pairwise distinct — the target's chain holds entries in ascending
`(priority, id)` order with non-decreasing priorities, each entry's slot is
wired to the next entry's detour, the last entry's slot to `origin`, and
`start` (the active entry point) is the first entry's detour; for an empty
entry set `updateCallList` yields `start = origin`. -/
theorem C1_chain_wiring :
    (∀ (st : RegState) (T d s p : Nat) (sp : Nat × Nat) (hd : HookData),
      lookupA st.hooks T = some hd →
      SortedElems hd.hooks →
      sp.2 = hd.origin →
      ((insertElem ⟨d, s, p, hd.hookId + 1⟩ hd.hooks).map (·.originalFunc)).Nodup →
      ∃ hd1, lookupA (hook st T d s p (some sp)).state.hooks T = some hd1 ∧
        hd1.hooks = insertElem ⟨d, s, p, hd.hookId + 1⟩ hd.hooks ∧
        SortedElems hd1.hooks ∧
        List.Pairwise (fun a b => a.priority ≤ b.priority) hd1.hooks ∧
        WiredFrom hd1.origin (hook st T d s p (some sp)).state.mem hd1.hooks ∧
        hd1.start = headDetour hd1.origin hd1.hooks) ∧
    (∀ (st : RegState) (T d s p : Nat) (sp : Nat × Nat),
      lookupA st.hooks T = none →
      sp.1 ≠ 0 →
      ∃ hd1, lookupA (hook st T d s p (some sp)).state.hooks T = some hd1 ∧
        hd1.hooks = [⟨d, s, p, 1⟩] ∧
        SortedElems hd1.hooks ∧
        WiredFrom hd1.origin (hook st T d s p (some sp)).state.mem hd1.hooks ∧
        hd1.start = headDetour hd1.origin hd1.hooks) ∧
    (∀ (st : RegState) (T d : Nat) (sp : Nat × Nat) (ru : Bool)
        (hd : HookData) (hooks1 : List HookElement),
      T ≠ 0 →
      lookupA st.hooks T = some hd →
      SortedElems hd.hooks →
      sp.2 = hd.origin →
      removeFirstDetour d hd.hooks = some hooks1 →
      hooks1 ≠ [] →
      (hooks1.map (·.originalFunc)).Nodup →
      ∃ hd1, lookupA (unhook st T d (some sp) ru).state.hooks T = some hd1 ∧
        hd1.hooks = hooks1 ∧
        SortedElems hd1.hooks ∧
        List.Pairwise (fun a b => a.priority ≤ b.priority) hd1.hooks ∧
        WiredFrom hd1.origin (unhook st T d (some sp) ru).state.mem hd1.hooks ∧
        hd1.start = headDetour hd1.origin hd1.hooks) ∧
    (∀ o : Nat, (updateCallList o []).1 = o) := by
  refine ⟨?_, ?_, ?_, fun o => rfl⟩
  · intro st T d s p sp hd h hsort hresp hnd
    rw [hook_eq_existing st T d s p sp h]
    obtain ⟨hframe, hwired, hstart⟩ :=
      updateCallList_spec hd.origin (insertElem ⟨d, s, p, hd.hookId + 1⟩ hd.hooks) st.mem hnd
    refine ⟨_, lookupA_updateA_self h, rfl, ?_, ?_, ?_, ?_⟩
    · exact pairwise_insertElem hsort
    · exact (pairwise_insertElem hsort).imp eltLt_priority_le
    · show WiredFrom sp.2 _ _
      rw [hresp]
      exact hwired
    · show (updateCallList hd.origin _).1 = headDetour sp.2 _
      rw [hresp]
      exact hstart
  · intro st T d s p sp h hsp
    rw [hook_eq_new_ok st T d s p sp h hsp]
    have hnd : (([⟨d, s, p, 1⟩] : List HookElement).map (·.originalFunc)).Nodup := by
      simp
    obtain ⟨hframe, hwired, hstart⟩ :=
      updateCallList_spec sp.2 [⟨d, s, p, 1⟩] st.mem hnd
    refine ⟨_, lookupA_append_self _ h, rfl, ?_, ?_, ?_⟩
    · exact List.pairwise_singleton _ _
    · exact hwired
    · exact hstart
  · intro st T d sp ru hd hooks1 ht h hsort hresp hr hne hnd
    rw [unhook_eq_rest st T d sp ru ht h hr hne]
    obtain ⟨hframe, hwired, hstart⟩ :=
      updateCallList_spec hd.origin hooks1 st.mem hnd
    refine ⟨_, lookupA_updateA_self h, rfl, ?_, ?_, ?_, ?_⟩
    · exact List.Pairwise.sublist (removeFirstDetour_sublist hr) hsort
    · exact (List.Pairwise.sublist (removeFirstDetour_sublist hr) hsort).imp
        eltLt_priority_le
    · show WiredFrom sp.2 _ _
      rw [hresp]
      exact hwired
    · show (updateCallList hd.origin _).1 = headDetour sp.2 _
      rw [hresp]
      exact hstart

/-- C1 witness: the install part applied to a concrete one-entry chain at
target 5 (origin 100, stub 7), inserting a higher-priority entry. -/
theorem C1_chain_wiring_witness :
    ∃ hd1,
      lookupA (hook ⟨[(5, ⟨5, 100, 10, 7, 1, [⟨10, 1, 0, 1⟩]⟩)], fun _ => 0⟩
        5 20 2 1 (some (7, 100))).state.hooks 5 = some hd1 ∧
      hd1.hooks = insertElem ⟨20, 2, 1, 1 + 1⟩ [⟨10, 1, 0, 1⟩] ∧
      SortedElems hd1.hooks ∧
      List.Pairwise (fun a b => a.priority ≤ b.priority) hd1.hooks ∧
      WiredFrom hd1.origin (hook ⟨[(5, ⟨5, 100, 10, 7, 1, [⟨10, 1, 0, 1⟩]⟩)], fun _ => 0⟩
        5 20 2 1 (some (7, 100))).state.mem hd1.hooks ∧
      hd1.start = headDetour hd1.origin hd1.hooks :=
  C1_chain_wiring.1 ⟨[(5, ⟨5, 100, 10, 7, 1, [⟨10, 1, 0, 1⟩]⟩)], fun _ => 0⟩
    5 20 2 1 (7, 100) ⟨5, 100, 10, 7, 1, [⟨10, 1, 0, 1⟩]⟩
    (by decide) (by decide) (by decide) (by decide)

end HookModel

namespace HookModel

/-- C2, counterexample: the engine install performed by a second `hook` on
the same target passes `&origin` again — after a first install (engine
response stub 7, origin 100) a second install whose engine response carries
previous entry point 50 leaves the chain's `origin` field at 50, not 100,
with both entries still present, and its trace shows the second origin
write.  This refutes "written exactly once, by the engine install performed
on the first hook, and never changed while at least one entry remains". -/
theorem C2_counterexample :
    lookupA (hook st0 5 10 1 0 (some (7, 100))).state.hooks 5
      = some ⟨5, 100, 10, 7, 1, [⟨10, 1, 0, 1⟩]⟩ ∧
    (hook (hook st0 5 10 1 0 (some (7, 100))).state 5 20 2 1 (some (9, 50))).events
      = [Ev.engInstall 5 10 (some (9, 50)), Ev.originWrite 5 50] ∧
    lookupA (hook (hook st0 5 10 1 0 (some (7, 100))).state 5 20 2 1
        (some (9, 50))).state.hooks 5
      = some ⟨5, 50, 10, 7, 2, [⟨10, 1, 0, 1⟩, ⟨20, 2, 1, 2⟩]⟩ := by
  decide

/-- C2, amended: `origin` is written by the engine on the first successful
install, and re-written by the engine call of every later install into the
existing chain and of every remove that leaves the chain non-empty (each
such call makes exactly one origin write, setting `origin` to the response's
previous entry point); a failing engine response on an existing chain leaves
`origin` unchanged with no write.  Hence the value obtained on first install
persists only if every later response returns it again. -/
theorem C2_origin_rewrites :
    (∀ (st : RegState) (T d s p : Nat) (sp : Nat × Nat),
      lookupA st.hooks T = none → sp.1 ≠ 0 →
      ∃ hd1, lookupA (hook st T d s p (some sp)).state.hooks T = some hd1 ∧
        hd1.origin = sp.2 ∧
        (hook st T d s p (some sp)).events.countP isOriginWrite = 1) ∧
    (∀ (st : RegState) (T d s p : Nat) (sp : Nat × Nat) (hd : HookData),
      lookupA st.hooks T = some hd →
      ∃ hd1, lookupA (hook st T d s p (some sp)).state.hooks T = some hd1 ∧
        hd1.origin = sp.2 ∧
        (hook st T d s p (some sp)).events.countP isOriginWrite = 1) ∧
    (∀ (st : RegState) (T d s p : Nat) (hd : HookData),
      lookupA st.hooks T = some hd →
      ∃ hd1, lookupA (hook st T d s p none).state.hooks T = some hd1 ∧
        hd1.origin = hd.origin ∧
        (hook st T d s p none).events.countP isOriginWrite = 0) ∧
    (∀ (st : RegState) (T d : Nat) (sp : Nat × Nat) (ru : Bool)
        (hd : HookData) (hooks1 : List HookElement),
      T ≠ 0 → lookupA st.hooks T = some hd →
      removeFirstDetour d hd.hooks = some hooks1 → hooks1 ≠ [] →
      ∃ hd1, lookupA (unhook st T d (some sp) ru).state.hooks T = some hd1 ∧
        hd1.origin = sp.2 ∧
        (unhook st T d (some sp) ru).events.countP isOriginWrite = 1) := by
  refine ⟨?_, ?_, ?_, ?_⟩
  · intro st T d s p sp h hsp
    rw [hook_eq_new_ok st T d s p sp h hsp]
    exact ⟨_, lookupA_append_self _ h, rfl, rfl⟩
  · intro st T d s p sp hd h
    rw [hook_eq_existing st T d s p sp h]
    exact ⟨_, lookupA_updateA_self h, rfl, rfl⟩
  · intro st T d s p hd h
    rw [hook_eq_existing_fail st T d s p h]
    exact ⟨_, lookupA_updateA_self h, rfl, rfl⟩
  · intro st T d sp ru hd hooks1 ht h hr hne
    rw [unhook_eq_rest st T d sp ru ht h hr hne]
    exact ⟨_, lookupA_updateA_self h, rfl, rfl⟩

/-- C2 witness: the second-install part applied to a concrete one-entry
chain, with an idempotent engine response. -/
theorem C2_origin_rewrites_witness :
    ∃ hd1, lookupA (hook ⟨[(5, ⟨5, 100, 10, 7, 1, [⟨10, 1, 0, 1⟩]⟩)], fun _ => 0⟩
        5 20 2 1 (some (9, 100))).state.hooks 5 = some hd1 ∧
      hd1.origin = (9, 100).2 ∧
      (hook ⟨[(5, ⟨5, 100, 10, 7, 1, [⟨10, 1, 0, 1⟩]⟩)], fun _ => 0⟩
        5 20 2 1 (some (9, 100))).events.countP isOriginWrite = 1 :=
  C2_origin_rewrites.2.1 ⟨[(5, ⟨5, 100, 10, 7, 1, [⟨10, 1, 0, 1⟩]⟩)], fun _ => 0⟩
    5 20 2 1 (9, 100) ⟨5, 100, 10, 7, 1, [⟨10, 1, 0, 1⟩]⟩ (by decide)

/-- C3, counterexample: inserting a non-head entry (priority 1 behind the
head's priority 0) leaves `start` at 10 — the active entry point did not
change — yet the trace of the call contains an engine install call.  This
refutes "the engine install primitive is invoked iff the recomputation
changed activeEntryPoint; for an insert of a non-head entry no engine call
is made". -/
theorem C3_counterexample :
    lookupA (hook st0 5 10 1 0 (some (7, 100))).state.hooks 5
      = some ⟨5, 100, 10, 7, 1, [⟨10, 1, 0, 1⟩]⟩ ∧
    (hook (hook st0 5 10 1 0 (some (7, 100))).state 5 20 2 1
        (some (9, 100))).events.countP isEngInstall = 1 ∧
    lookupA (hook (hook st0 5 10 1 0 (some (7, 100))).state 5 20 2 1
        (some (9, 100))).state.hooks 5
      = some ⟨5, 100, 10, 7, 2, [⟨10, 1, 0, 1⟩, ⟨20, 2, 1, 2⟩]⟩ := by
  decide

/-- C3, amended: the engine install primitive is invoked exactly once on
every install into an existing chain and exactly once on every remove that
leaves the chain non-empty, whether or not `start` changed; a remove that
empties the chain invokes the uninstall primitive exactly once and the
install primitive not at all. -/
theorem C3_engine_call_discipline :
    (∀ (st : RegState) (T d s p : Nat) (resp : Option (Nat × Nat)) (hd : HookData),
      lookupA st.hooks T = some hd →
      (hook st T d s p resp).events.countP isEngInstall = 1 ∧
      (hook st T d s p resp).events.countP isEngUninstall = 0) ∧
    (∀ (st : RegState) (T d : Nat) (ri : Option (Nat × Nat)) (ru : Bool)
        (hd : HookData) (hooks1 : List HookElement),
      T ≠ 0 → lookupA st.hooks T = some hd →
      removeFirstDetour d hd.hooks = some hooks1 → hooks1 ≠ [] →
      (unhook st T d ri ru).events.countP isEngInstall = 1 ∧
      (unhook st T d ri ru).events.countP isEngUninstall = 0) ∧
    (∀ (st : RegState) (T d : Nat) (ri : Option (Nat × Nat)) (ru : Bool)
        (hd : HookData),
      T ≠ 0 → lookupA st.hooks T = some hd →
      removeFirstDetour d hd.hooks = some [] →
      (unhook st T d ri ru).events = [Ev.engUninstall hd.stub ru]) := by
  refine ⟨?_, ?_, ?_⟩
  · intro st T d s p resp hd h
    cases resp with
    | some sp =>
        rw [hook_eq_existing st T d s p sp h]
        exact ⟨rfl, rfl⟩
    | none =>
        rw [hook_eq_existing_fail st T d s p h]
        exact ⟨rfl, rfl⟩
  · intro st T d ri ru hd hooks1 ht h hr hne
    cases ri with
    | some sp =>
        rw [unhook_eq_rest st T d sp ru ht h hr hne]
        exact ⟨rfl, rfl⟩
    | none =>
        rw [unhook_eq_rest_fail st T d ru ht h hr hne]
        exact ⟨rfl, rfl⟩
  · intro st T d ri ru hd ht h hr
    rw [unhook_eq_emptied st T d ri ru ht h hr]

/-- C3 witness: the install part applied to a concrete one-entry chain with
a non-head insertion. -/
theorem C3_engine_call_discipline_witness :
    (hook ⟨[(5, ⟨5, 100, 10, 7, 1, [⟨10, 1, 0, 1⟩]⟩)], fun _ => 0⟩
        5 20 2 1 (some (9, 100))).events.countP isEngInstall = 1 ∧
    (hook ⟨[(5, ⟨5, 100, 10, 7, 1, [⟨10, 1, 0, 1⟩]⟩)], fun _ => 0⟩
        5 20 2 1 (some (9, 100))).events.countP isEngUninstall = 0 :=
  C3_engine_call_discipline.1 ⟨[(5, ⟨5, 100, 10, 7, 1, [⟨10, 1, 0, 1⟩]⟩)], fun _ => 0⟩
    5 20 2 1 (some (9, 100)) ⟨5, 100, 10, 7, 1, [⟨10, 1, 0, 1⟩]⟩ (by decide)

/-- C4, counterexample: removing the last entry while the engine's
uninstall call fails (status `false`, which the code ignores) still returns
`true`, and a second install whose engine call fails entirely still returns
0 — engine failures in these paths are swallowed, refuting "every failure
reported by the engine is returned to the caller; no engine failure leaves
the operation reporting success". -/
theorem C4_counterexample :
    (unhook (hook st0 5 10 1 0 (some (7, 100))).state 5 10 none false).ret = true ∧
    (unhook (hook st0 5 10 1 0 (some (7, 100))).state 5 10 none false).events
      = [Ev.engUninstall 7 false] ∧
    (hook (hook st0 5 10 1 0 (some (7, 100))).state 5 20 2 1 none).ret = 0 ∧
    (hook (hook st0 5 10 1 0 (some (7, 100))).state 5 20 2 1 none).events
      = [Ev.engInstall 5 10 none] := by
  decide

/-- C4, amended: only an engine failure on the very first install of a
target is reported (the call returns -1); an install into an existing chain
returns 0 for every engine response, a remove that finds an entry returns
`true` for every engine response, and `unhookAll` returns no status, so
engine failures in those paths are never reported. -/
theorem C4_error_reporting :
    (∀ (st : RegState) (T d s p : Nat),
      lookupA st.hooks T = none → (hook st T d s p none).ret = -1) ∧
    (∀ (st : RegState) (T d s p : Nat) (sp : Nat × Nat),
      lookupA st.hooks T = none → sp.1 = 0 → (hook st T d s p (some sp)).ret = -1) ∧
    (∀ (st : RegState) (T d s p : Nat) (resp : Option (Nat × Nat)) (hd : HookData),
      lookupA st.hooks T = some hd → (hook st T d s p resp).ret = 0) ∧
    (∀ (st : RegState) (T d : Nat) (ri : Option (Nat × Nat)) (ru : Bool)
        (hd : HookData) (hooks1 : List HookElement),
      T ≠ 0 → lookupA st.hooks T = some hd →
      removeFirstDetour d hd.hooks = some hooks1 →
      (unhook st T d ri ru).ret = true) ∧
    (∀ (st : RegState) (ru ru' : Nat → Bool),
      (unhookAll st ru).1 = (unhookAll st ru').1) := by
  refine ⟨?_, ?_, ?_, ?_, ?_⟩
  · intro st T d s p h
    rw [hook_eq_new_fail st T d s p h]
  · intro st T d s p sp h hsp
    rw [hook_eq_new_nullstub st T d s p sp h hsp]
  · intro st T d s p resp hd h
    cases resp with
    | some sp => rw [hook_eq_existing st T d s p sp h]
    | none => rw [hook_eq_existing_fail st T d s p h]
  · intro st T d ri ru hd hooks1 ht h hr
    by_cases hne : hooks1 = []
    · subst hne
      rw [unhook_eq_emptied st T d ri ru ht h hr]
    · cases ri with
      | some sp => rw [unhook_eq_rest st T d sp ru ht h hr hne]
      | none => rw [unhook_eq_rest_fail st T d ru ht h hr hne]
  · intro st ru ru'
    rfl

/-- C4 witness: the remove part applied to a concrete one-entry chain with
a failing engine uninstall response. -/
theorem C4_error_reporting_witness :
    (unhook ⟨[(5, ⟨5, 100, 10, 7, 1, [⟨10, 1, 0, 1⟩]⟩)], fun _ => 0⟩
      5 10 none false).ret = true :=
  C4_error_reporting.2.2.2.1 ⟨[(5, ⟨5, 100, 10, 7, 1, [⟨10, 1, 0, 1⟩]⟩)], fun _ => 0⟩
    5 10 none false ⟨5, 100, 10, 7, 1, [⟨10, 1, 0, 1⟩]⟩ []
    (by decide) (by decide) (by decide)

/-- C5: a failed install on a fresh target (engine failure: no response or
a null stub) returns -1 and leaves the whole state — registry map, every
chain, and all caller slot memory — exactly as before, and a remove that
returns `false` (null target, unknown target, or unmatched detour) likewise
leaves the whole state unchanged. -/
theorem C5_failure_preserves_state :
    (∀ (st : RegState) (T d s p : Nat),
      lookupA st.hooks T = none →
      (hook st T d s p none).state = st ∧ (hook st T d s p none).ret = -1) ∧
    (∀ (st : RegState) (T d s p : Nat) (sp : Nat × Nat),
      lookupA st.hooks T = none → sp.1 = 0 →
      (hook st T d s p (some sp)).state = st ∧
      (hook st T d s p (some sp)).ret = -1) ∧
    (∀ (st : RegState) (T d : Nat) (ri : Option (Nat × Nat)) (ru : Bool),
      (unhook st T d ri ru).ret = false → (unhook st T d ri ru).state = st) := by
  refine ⟨?_, ?_, ?_⟩
  · intro st T d s p h
    rw [hook_eq_new_fail st T d s p h]
    exact ⟨rfl, rfl⟩
  · intro st T d s p sp h hsp
    rw [hook_eq_new_nullstub st T d s p sp h hsp]
    exact ⟨rfl, rfl⟩
  · intro st T d ri ru h
    by_cases ht : T = 0
    · subst ht
      rw [unhook_eq_nulltarget st d ri ru]
    · cases hl : lookupA st.hooks T with
      | none => rw [unhook_eq_notarget st T d ri ru ht hl]
      | some hd =>
          cases hr : removeFirstDetour d hd.hooks with
          | none => rw [unhook_eq_nodetour st T d ri ru ht hl hr]
          | some hooks1 =>
              exfalso
              by_cases hne : hooks1 = []
              · subst hne
                rw [unhook_eq_emptied st T d ri ru ht hl hr] at h
                simp at h
              · cases ri with
                | some sp =>
                    rw [unhook_eq_rest st T d sp ru ht hl hr hne] at h
                    simp at h
                | none =>
                    rw [unhook_eq_rest_fail st T d ru ht hl hr hne] at h
                    simp at h

/-- C5 witness: a failing first install on the empty registry and a remove
with an unmatched detour, both leaving the state unchanged. -/
theorem C5_failure_preserves_state_witness :
    (hook st0 5 10 1 0 none).state = st0 ∧ (hook st0 5 10 1 0 none).ret = -1 :=
  C5_failure_preserves_state.1 st0 5 10 1 0 (by decide)

end HookModel

namespace HookModel

/-- C8: on a chain containing several entries with the same detour, one
`unhook` call removes exactly the first match in ascending `(priority, id)`
order — which, the chain being sorted, is the lowest-ordered match — reports
success, and leaves every other entry (the later matches included) exactly
in place. -/
theorem C8_remove_first_match :
    ∀ (st : RegState) (T d : Nat) (ri : Option (Nat × Nat)) (ru : Bool)
      (hd : HookData) (u v : List HookElement) (x : HookElement),
      T ≠ 0 →
      lookupA st.hooks T = some hd →
      SortedElems hd.hooks →
      hd.hooks = u ++ x :: v →
      (∀ y ∈ u, y.detour ≠ d) →
      x.detour = d →
      (∃ y ∈ v, y.detour = d) →
      (unhook st T d ri ru).ret = true ∧
      ∃ hd1, lookupA (unhook st T d ri ru).state.hooks T = some hd1 ∧
        hd1.hooks = u ++ v ∧
        (∀ y ∈ u ++ v, y ∈ hd.hooks) ∧
        (∀ y, y ∈ hd.hooks → y ≠ x → y ∈ u ++ v) ∧
        (∀ y ∈ u ++ v, y.detour = d → eltLt x y) := by
  intro st T d ri ru hd u v x ht h hsort hsplit hu hx hdup
  have hr : removeFirstDetour d hd.hooks = some (u ++ v) := by
    rw [hsplit]
    exact removeFirstDetour_append hu hx
  have hne : u ++ v ≠ [] := by
    obtain ⟨y, hy, _⟩ := hdup
    intro hc
    have : y ∈ u ++ v := List.mem_append.mpr (Or.inr hy)
    rw [hc] at this
    simp at this
  have hxv : ∀ y ∈ v, eltLt x y := by
    have hs : SortedElems (u ++ x :: v) := hsplit ▸ hsort
    have := (List.pairwise_append.mp hs).2.1
    exact (List.pairwise_cons.mp this).1
  have hmain :
      (∀ y ∈ u ++ v, y ∈ hd.hooks) ∧
      (∀ y, y ∈ hd.hooks → y ≠ x → y ∈ u ++ v) ∧
      (∀ y ∈ u ++ v, y.detour = d → eltLt x y) := by
    refine ⟨?_, ?_, ?_⟩
    · intro y hy
      rw [hsplit]
      rcases List.mem_append.mp hy with hy | hy
      · exact List.mem_append.mpr (Or.inl hy)
      · exact List.mem_append.mpr (Or.inr (List.mem_cons.mpr (Or.inr hy)))
    · intro y hy hyx
      rw [hsplit] at hy
      rcases List.mem_append.mp hy with hy | hy
      · exact List.mem_append.mpr (Or.inl hy)
      · rcases List.mem_cons.mp hy with hy | hy
        · exact absurd hy hyx
        · exact List.mem_append.mpr (Or.inr hy)
    · intro y hy hyd
      rcases List.mem_append.mp hy with hy | hy
      · exact absurd hyd (hu y hy)
      · exact hxv y hy
  cases ri with
  | some sp =>
      rw [unhook_eq_rest st T d sp ru ht h hr hne]
      exact ⟨rfl, _, lookupA_updateA_self h, rfl, hmain.1, hmain.2.1, hmain.2.2⟩
  | none =>
      rw [unhook_eq_rest_fail st T d ru ht h hr hne]
      exact ⟨rfl, _, lookupA_updateA_self h, rfl, hmain.1, hmain.2.1, hmain.2.2⟩

/-- C8 witness: a chain with two entries sharing detour 10 registered at
priorities 0 and 1; removing detour 10 once removes only the priority-0
entry. -/
theorem C8_remove_first_match_witness :
    (unhook ⟨[(5, ⟨5, 100, 10, 7, 2, [⟨10, 1, 0, 1⟩, ⟨10, 2, 1, 2⟩]⟩)], fun _ => 0⟩
      5 10 (some (9, 100)) true).ret = true ∧
    ∃ hd1, lookupA (unhook ⟨[(5, ⟨5, 100, 10, 7, 2,
        [⟨10, 1, 0, 1⟩, ⟨10, 2, 1, 2⟩]⟩)], fun _ => 0⟩
      5 10 (some (9, 100)) true).state.hooks 5 = some hd1 ∧
      hd1.hooks = [] ++ [⟨10, 2, 1, 2⟩] ∧
      (∀ y ∈ ([] ++ [⟨10, 2, 1, 2⟩] : List HookElement),
        y ∈ ([⟨10, 1, 0, 1⟩, ⟨10, 2, 1, 2⟩] : List HookElement)) ∧
      (∀ y, y ∈ ([⟨10, 1, 0, 1⟩, ⟨10, 2, 1, 2⟩] : List HookElement) →
        y ≠ ⟨10, 1, 0, 1⟩ → y ∈ ([] ++ [⟨10, 2, 1, 2⟩] : List HookElement)) ∧
      (∀ y ∈ ([] ++ [⟨10, 2, 1, 2⟩] : List HookElement), y.detour = 10 →
        eltLt ⟨10, 1, 0, 1⟩ y) :=
  C8_remove_first_match ⟨[(5, ⟨5, 100, 10, 7, 2, [⟨10, 1, 0, 1⟩, ⟨10, 2, 1, 2⟩]⟩)], fun _ => 0⟩
    5 10 (some (9, 100)) true ⟨5, 100, 10, 7, 2, [⟨10, 1, 0, 1⟩, ⟨10, 2, 1, 2⟩]⟩
    [] [⟨10, 2, 1, 2⟩] ⟨10, 1, 0, 1⟩
    (by decide) (by decide) (by decide) (by decide) (by decide) (by decide)
    ⟨⟨10, 2, 1, 2⟩, by decide, by decide⟩

/-- C10: the resolver's module lookup is hard-wired to
`libminecraftpe.so` — the only module name it ever scans — and the first
call's scan outcome is cached for good: when the first scan yields a zero
base or size, that call and every later call (any identifier, any current
state of the memory map) return 0 without scanning again and without
changing the cached state. -/
theorem C10_resolver_caching :
    (∀ (scan : String → Nat × Nat) (matcher : Nat → Nat → String → Nat)
        (idf : String) (b s : Nat),
      scan "libminecraftpe.so" = (b, s) → (b = 0 ∨ s = 0) →
      resolveIdentifier rs0 scan matcher idf
        = (⟨true, b, s⟩, 0, ["libminecraftpe.so"])) ∧
    (∀ (rs : ResolverState) (scan : String → Nat × Nat)
        (matcher : Nat → Nat → String → Nat) (idf : String),
      rs.inited = true → (rs.base = 0 ∨ rs.size = 0) →
      resolveIdentifier rs scan matcher idf = (rs, 0, [])) ∧
    (∀ (rs : ResolverState) (scan : String → Nat × Nat)
        (matcher : Nat → Nat → String → Nat) (idf : String),
      (resolveIdentifier rs scan matcher idf).2.2 = [] ∨
      (resolveIdentifier rs scan matcher idf).2.2 = ["libminecraftpe.so"]) := by
  refine ⟨?_, ?_, ?_⟩
  · intro scan matcher idf b s hscan hz
    unfold resolveIdentifier rs0
    simp only [Bool.false_eq_true, if_false, hscan]
    rw [if_pos hz]
  · intro rs scan matcher idf hin hz
    unfold resolveIdentifier
    simp only [hin, if_true]
    rw [if_pos hz]
  · intro rs scan matcher idf
    unfold resolveIdentifier
    by_cases hin : rs.inited = true
    · simp [hin]
      by_cases hz : rs.base = 0 ∨ rs.size = 0
      · rw [if_pos hz]
        simp
      · rw [if_neg hz]
        simp
    · simp only [Bool.not_eq_true] at hin
      simp [hin]
      by_cases hz : (scan "libminecraftpe.so").1 = 0 ∨ (scan "libminecraftpe.so").2 = 0
      · rw [if_pos hz]
        simp
      · rw [if_neg hz]
        simp

/-- C10 witness: a first scan that finds no module (base 0) caches the
failure, and any later call in that cached state returns 0 without
scanning, even with a scan oracle that would now succeed. -/
theorem C10_resolver_caching_witness :
    resolveIdentifier rs0 (fun _ => (0, 5)) (fun _ _ _ => 77) "sig"
      = (⟨true, 0, 5⟩, 0, ["libminecraftpe.so"]) ∧
    resolveIdentifier ⟨true, 0, 5⟩ (fun _ => (4096, 5)) (fun _ _ _ => 77) "sig"
      = (⟨true, 0, 5⟩, 0, []) :=
  ⟨C10_resolver_caching.1 (fun _ => (0, 5)) (fun _ _ _ => 77) "sig" 0 5 rfl (Or.inl rfl),
   C10_resolver_caching.2.1 ⟨true, 0, 5⟩ (fun _ => (4096, 5)) (fun _ _ _ => 77) "sig"
     rfl (Or.inl rfl)⟩

end HookModel

namespace HookModel

/-! ## The registry invariant: chains in the map are never empty -/

theorem not_mem_keys_of_lookupA_none {l : List (Nat × HookData)} {k : Nat}
    (h : lookupA l k = none) : k ∉ l.map Prod.fst := by
  induction l with
  | nil => simp
  | cons kv t ih =>
      simp only [lookupA] at h
      by_cases hk : kv.1 = k
      · simp [hk] at h
      · simp only [hk, if_false] at h
        simp only [List.map_cons, List.mem_cons]
        push_neg
        exact ⟨fun hc => hk hc.symm, ih h⟩

theorem stepOp_inv {st : RegState} (h : RegInv st) (op : Op) :
    RegInv (stepOp st op) := by
  obtain ⟨hkeys, hmem⟩ := h
  cases op with
  | ins T d s p resp =>
      show RegInv (hook st T d s p resp).state
      cases hl : lookupA st.hooks T with
      | some hd =>
          cases resp with
          | some sp =>
              rw [hook_eq_existing st T d s p sp hl]
              refine ⟨by simpa [keys_updateA] using hkeys, ?_⟩
              intro kv hkv
              rcases mem_updateA kv hkv with hkv | hkv
              · exact hmem kv hkv
              · rw [hkv]
                exact insertElem_ne_nil _ _
          | none =>
              rw [hook_eq_existing_fail st T d s p hl]
              refine ⟨by simpa [keys_updateA] using hkeys, ?_⟩
              intro kv hkv
              rcases mem_updateA kv hkv with hkv | hkv
              · exact hmem kv hkv
              · rw [hkv]
                exact insertElem_ne_nil _ _
      | none =>
          cases resp with
          | some sp =>
              by_cases hsp : sp.1 = 0
              · rw [hook_eq_new_nullstub st T d s p sp hl hsp]
                exact ⟨hkeys, hmem⟩
              · rw [hook_eq_new_ok st T d s p sp hl hsp]
                constructor
                · simp only [List.map_append, List.map_cons, List.map_nil]
                  rw [List.nodup_append]
                  refine ⟨hkeys, List.nodup_singleton _, ?_⟩
                  intro a ha hb
                  simp only [List.mem_singleton] at hb
                  subst hb
                  exact not_mem_keys_of_lookupA_none hl ha
                · intro kv hkv
                  rcases List.mem_append.mp hkv with hkv | hkv
                  · exact hmem kv hkv
                  · simp only [List.mem_singleton] at hkv
                    rw [hkv]
                    simp
          | none =>
              rw [hook_eq_new_fail st T d s p hl]
              exact ⟨hkeys, hmem⟩
  | rem T d ri ru =>
      show RegInv (unhook st T d ri ru).state
      by_cases ht : T = 0
      · subst ht
        rw [unhook_eq_nulltarget st d ri ru]
        exact ⟨hkeys, hmem⟩
      · cases hl : lookupA st.hooks T with
        | none =>
            rw [unhook_eq_notarget st T d ri ru ht hl]
            exact ⟨hkeys, hmem⟩
        | some hd =>
            cases hr : removeFirstDetour d hd.hooks with
            | none =>
                rw [unhook_eq_nodetour st T d ri ru ht hl hr]
                exact ⟨hkeys, hmem⟩
            | some hooks1 =>
                by_cases hne : hooks1 = []
                · subst hne
                  rw [unhook_eq_emptied st T d ri ru ht hl hr]
                  refine ⟨(keys_eraseA_sublist st.hooks T).nodup hkeys, ?_⟩
                  intro kv hkv
                  exact hmem kv (mem_eraseA kv hkv)
                · cases ri with
                  | some sp =>
                      rw [unhook_eq_rest st T d sp ru ht hl hr hne]
                      refine ⟨by simpa [keys_updateA] using hkeys, ?_⟩
                      intro kv hkv
                      rcases mem_updateA kv hkv with hkv | hkv
                      · exact hmem kv hkv
                      · rw [hkv]
                        exact hne
                  | none =>
                      rw [unhook_eq_rest_fail st T d ru ht hl hr hne]
                      refine ⟨by simpa [keys_updateA] using hkeys, ?_⟩
                      intro kv hkv
                      rcases mem_updateA kv hkv with hkv | hkv
                      · exact hmem kv hkv
                      · rw [hkv]
                        exact hne
  | remAll ru =>
      exact ⟨List.nodup_nil, by simp [stepOp, unhookAll]⟩

theorem runOps_inv (ops : List Op) : RegInv (runOps st0 ops) := by
  have aux : ∀ (ops : List Op) (st : RegState), RegInv st → RegInv (runOps st ops) := by
    intro ops
    induction ops with
    | nil => exact fun st h => h
    | cons o os ih => exact fun st h => ih (stepOp st o) (stepOp_inv h o)
  exact aux ops st0 ⟨List.nodup_nil, by simp [st0]⟩

/-- C7: after any sequence of operations from the empty registry, every
registered chain is non-empty (a target is a key exactly while entries
remain); a remove that empties a chain reports success, calls the engine
uninstall primitive exactly once with the stored stub, and erases the
target from the registry; and a subsequent install on a target absent from
the registry creates a fresh one-entry chain carrying exactly the stub and
origin of the fresh engine response. -/
theorem C7_registry_lifecycle :
    (∀ (ops : List Op) (T : Nat) (hd : HookData),
      lookupA (runOps st0 ops).hooks T = some hd → hd.hooks ≠ []) ∧
    (∀ (st : RegState) (T d : Nat) (ri : Option (Nat × Nat)) (ru : Bool)
        (hd : HookData),
      (st.hooks.map Prod.fst).Nodup → T ≠ 0 → lookupA st.hooks T = some hd →
      removeFirstDetour d hd.hooks = some [] →
      (unhook st T d ri ru).ret = true ∧
      (unhook st T d ri ru).events = [Ev.engUninstall hd.stub ru] ∧
      lookupA (unhook st T d ri ru).state.hooks T = none) ∧
    (∀ (st : RegState) (T d s p : Nat) (sp : Nat × Nat),
      lookupA st.hooks T = none → sp.1 ≠ 0 →
      ∃ hd1, lookupA (hook st T d s p (some sp)).state.hooks T = some hd1 ∧
        hd1.stub = sp.1 ∧ hd1.origin = sp.2 ∧ hd1.hookId = 1 ∧
        hd1.hooks = [⟨d, s, p, 1⟩]) := by
  refine ⟨?_, ?_, ?_⟩
  · intro ops T hd h
    exact (runOps_inv ops).2 (T, hd) (mem_of_lookupA h)
  · intro st T d ri ru hd hkeys ht h hr
    rw [unhook_eq_emptied st T d ri ru ht h hr]
    exact ⟨rfl, rfl, lookupA_eraseA_self hkeys⟩
  · intro st T d s p sp h hsp
    rw [hook_eq_new_ok st T d s p sp h hsp]
    exact ⟨_, lookupA_append_self _ h, rfl, rfl, rfl, rfl⟩

/-- C7 witness: emptying a concrete one-entry chain at target 5 (stub 7)
with a failing engine uninstall status. -/
theorem C7_registry_lifecycle_witness :
    (unhook ⟨[(5, ⟨5, 100, 10, 7, 1, [⟨10, 1, 0, 1⟩]⟩)], fun _ => 0⟩
      5 10 none false).ret = true ∧
    (unhook ⟨[(5, ⟨5, 100, 10, 7, 1, [⟨10, 1, 0, 1⟩]⟩)], fun _ => 0⟩
      5 10 none false).events = [Ev.engUninstall 7 false] ∧
    lookupA (unhook ⟨[(5, ⟨5, 100, 10, 7, 1, [⟨10, 1, 0, 1⟩]⟩)], fun _ => 0⟩
      5 10 none false).state.hooks 5 = none :=
  C7_registry_lifecycle.2.1 ⟨[(5, ⟨5, 100, 10, 7, 1, [⟨10, 1, 0, 1⟩]⟩)], fun _ => 0⟩
    5 10 none false ⟨5, 100, 10, 7, 1, [⟨10, 1, 0, 1⟩]⟩
    (by decide) (by decide) (by decide) (by decide)

end HookModel

namespace HookModel

/-! ## Payload-level view of the entry set (toward C9) -/

theorem updateCallList_fst (o : Nat) (es : List HookElement) :
    (updateCallList o es).1 = headDetour o es := by
  cases es <;> rfl

theorem headDetour_congr {o o' : Nat} {l : List HookElement} (h : l ≠ []) :
    headDetour o l = headDetour o' l := by
  cases l with
  | nil => exact absurd rfl h
  | cons e es => rfl

theorem payload_insertElem {e : HookElement} :
    ∀ {acc : List HookElement}, (∀ y ∈ acc, y.id < e.id) →
      (insertElem e acc).map payload = insertLEP (payload e) (acc.map payload) := by
  intro acc
  induction acc with
  | nil => intro _; rfl
  | cons h t ih =>
      intro hid
      have hh : h.id < e.id := hid h (by simp)
      have ht : ∀ y ∈ t, y.id < e.id := fun y hy => hid y (by simp [hy])
      by_cases hp : h.priority ≤ e.priority
      · have h1 : ¬ eltLt e h := by
          rw [eltLt_iff]
          omega
        have h2 : eltLt h e := by
          rw [eltLt_iff]
          omega
        have h1' : ¬ (HookElement.lt e h = true) := h1
        have h2' : HookElement.lt h e = true := h2
        unfold insertElem
        rw [if_neg h1', if_pos h2']
        show payload h :: (insertElem e t).map payload
            = insertLEP (payload e) (payload h :: t.map payload)
        unfold insertLEP
        rw [if_pos (by simpa [payload] using hp)]
        rw [ih ht]
      · have h1 : eltLt e h := by
          rw [eltLt_iff]
          omega
        have h1' : HookElement.lt e h = true := h1
        unfold insertElem
        rw [if_pos h1']
        show payload e :: payload h :: t.map payload
            = insertLEP (payload e) (payload h :: t.map payload)
        unfold insertLEP
        rw [if_neg (by simpa [payload] using hp)]

theorem insertLEP_perm (r : Req) : ∀ l : List Req, (insertLEP r l).Perm (r :: l) := by
  intro l
  induction l with
  | nil => exact List.Perm.refl _
  | cons h t ih =>
      unfold insertLEP
      by_cases hp : h.priority ≤ r.priority
      · rw [if_pos hp]
        exact (ih.cons h).trans (List.Perm.swap r h t)
      · rw [if_neg hp]

theorem pbuild_perm : ∀ (rs acc : List Req), (pbuild rs acc).Perm (rs ++ acc) := by
  intro rs
  induction rs with
  | nil => intro acc; simp [pbuild]
  | cons r rs ih =>
      intro acc
      show (pbuild rs (insertLEP r acc)).Perm _
      refine (ih (insertLEP r acc)).trans ?_
      refine (List.Perm.append_left rs (insertLEP_perm r acc)).trans ?_
      exact List.perm_middle

theorem mem_insertElem_id_le {e : HookElement} {acc : List HookElement} {n : Nat}
    (he : e.id ≤ n) (hacc : ∀ y ∈ acc, y.id ≤ n) :
    ∀ y ∈ insertElem e acc, y.id ≤ n := by
  intro y hy
  rcases mem_of_mem_insertElem hy with h | h
  · exact h ▸ he
  · exact hacc y h

theorem payload_buildHooks :
    ∀ (rs : List Req) (n : Nat) (acc : List HookElement),
      (∀ y ∈ acc, y.id ≤ n) →
      (buildHooks rs n acc).map payload = pbuild rs (acc.map payload) := by
  intro rs
  induction rs with
  | nil => intro n acc _; rfl
  | cons r rs ih =>
      intro n acc hacc
      show (buildHooks rs (n + 1) (insertElem ⟨r.detour, r.slot, r.priority, n + 1⟩ acc)).map payload
          = pbuild rs (insertLEP r (acc.map payload))
      rw [ih (n + 1) _ (mem_insertElem_id_le (Nat.le_refl _)
        (fun y hy => Nat.le_succ_of_le (hacc y hy)))]
      rw [payload_insertElem (fun y hy => Nat.lt_succ_of_le (hacc y hy))]
      rfl

theorem buildHooks_append :
    ∀ (a b : List Req) (n : Nat) (acc : List HookElement),
      buildHooks (a ++ b) n acc = buildHooks b (n + a.length) (buildHooks a n acc) := by
  intro a
  induction a with
  | nil => intro b n acc; rfl
  | cons c a ih =>
      intro b n acc
      show buildHooks (a ++ b) (n + 1) _ = _
      rw [ih b (n + 1)]
      have hlen : n + 1 + a.length = n + (c :: a).length := by
        simp only [List.length_cons]
        omega
      rw [hlen]
      rfl

theorem runInstalls_append (T p : Nat) :
    ∀ (a b : List Req) (st : RegState),
      runInstalls T p st (a ++ b) = runInstalls T p (runInstalls T p st a) b := by
  intro a
  induction a with
  | nil => intro b st; rfl
  | cons r a ih =>
      intro b st
      show runInstalls T p _ (a ++ b) = _
      rw [ih]
      rfl

end HookModel

namespace HookModel

/-! ## Removal commutes with priority-ordered insertion (toward C9) -/

theorem mem_insertLEP {r y : Req} {l : List Req} :
    y ∈ insertLEP r l ↔ y = r ∨ y ∈ l := by
  rw [(insertLEP_perm r l).mem_iff]
  simp

theorem pairwise_insertLEP {r : Req} :
    ∀ {l : List Req},
      List.Pairwise (fun a b : Req => a.priority ≤ b.priority) l →
      List.Pairwise (fun a b : Req => a.priority ≤ b.priority) (insertLEP r l) := by
  intro l
  induction l with
  | nil => intro _; simp [insertLEP]
  | cons h t ih =>
      intro hl
      obtain ⟨hh, ht⟩ := List.pairwise_cons.mp hl
      unfold insertLEP
      by_cases hp : h.priority ≤ r.priority
      · rw [if_pos hp]
        refine List.pairwise_cons.mpr ⟨?_, ih ht⟩
        intro y hy
        rcases mem_insertLEP.mp hy with hy | hy
        · exact hy ▸ hp
        · exact hh y hy
      · rw [if_neg hp]
        have hrh : r.priority ≤ h.priority := Nat.le_of_lt (Nat.lt_of_not_le hp)
        refine List.pairwise_cons.mpr ⟨?_, hl⟩
        intro y hy
        rcases List.mem_cons.mp hy with hy | hy
        · exact hy ▸ hrh
        · exact Nat.le_trans hrh (hh y hy)

theorem pairwise_pbuild :
    ∀ (rs acc : List Req),
      List.Pairwise (fun a b : Req => a.priority ≤ b.priority) acc →
      List.Pairwise (fun a b : Req => a.priority ≤ b.priority) (pbuild rs acc) := by
  intro rs
  induction rs with
  | nil => exact fun acc h => h
  | cons r rs ih => exact fun acc h => ih (insertLEP r acc) (pairwise_insertLEP h)

theorem insertLEP_eq_cons {r : Req} {l : List Req}
    (h : ∀ y ∈ l, r.priority < y.priority) : insertLEP r l = r :: l := by
  cases l with
  | nil => rfl
  | cons a t =>
      unfold insertLEP
      rw [if_neg (Nat.not_le_of_lt (h a (by simp)))]

theorem insertLEP_cons_le {r h : Req} {t : List Req} (hp : h.priority ≤ r.priority) :
    insertLEP r (h :: t) = h :: insertLEP r t := by
  simp [insertLEP, hp]

theorem insertLEP_cons_gt {r h : Req} {t : List Req} (hp : ¬ h.priority ≤ r.priority) :
    insertLEP r (h :: t) = r :: h :: t := by
  simp [insertLEP, hp]

theorem removeFirstP_cons_eq {d : Nat} {h : Req} {t : List Req} (hd1 : h.detour = d) :
    removeFirstP d (h :: t) = some t := by
  simp [removeFirstP, hd1]

theorem removeFirstP_cons_ne {d : Nat} {h : Req} {t : List Req} (hd1 : h.detour ≠ d) :
    removeFirstP d (h :: t) = (removeFirstP d t).map (h :: ·) := by
  simp [removeFirstP, hd1]

theorem removeFirstP_insertLEP {d : Nat} {r : Req} :
    ∀ {acc acc' : List Req},
      List.Pairwise (fun a b : Req => a.priority ≤ b.priority) acc →
      r.detour ≠ d →
      removeFirstP d acc = some acc' →
      removeFirstP d (insertLEP r acc) = some (insertLEP r acc') := by
  intro acc
  induction acc with
  | nil =>
      intro acc' _ _ hrem
      simp [removeFirstP] at hrem
  | cons h t ih =>
      intro acc' hs hrd hrem
      obtain ⟨hhall, hs'⟩ := List.pairwise_cons.mp hs
      by_cases hd1 : h.detour = d
      · rw [removeFirstP_cons_eq hd1, Option.some.injEq] at hrem
        subst hrem
        by_cases hp : h.priority ≤ r.priority
        · rw [insertLEP_cons_le hp, removeFirstP_cons_eq hd1]
        · rw [insertLEP_cons_gt hp, removeFirstP_cons_ne hrd,
            removeFirstP_cons_eq hd1,
            insertLEP_eq_cons (fun y hy =>
              Nat.lt_of_lt_of_le (Nat.lt_of_not_le hp) (hhall y hy))]
          rfl
      · rw [removeFirstP_cons_ne hd1] at hrem
        obtain ⟨t', ht', hacc'⟩ : ∃ t', removeFirstP d t = some t' ∧ acc' = h :: t' := by
          cases hmm : removeFirstP d t with
          | none =>
              rw [hmm] at hrem
              simp at hrem
          | some t' =>
              rw [hmm] at hrem
              simp at hrem
              exact ⟨t', rfl, hrem.symm⟩
        subst hacc'
        by_cases hp : h.priority ≤ r.priority
        · rw [insertLEP_cons_le hp, removeFirstP_cons_ne hd1, ih hs' hrd ht',
            insertLEP_cons_le hp]
          rfl
        · rw [insertLEP_cons_gt hp, removeFirstP_cons_ne hrd,
            removeFirstP_cons_ne hd1, ht', insertLEP_cons_gt hp]
          rfl

theorem removeFirstP_pbuild {d : Nat} :
    ∀ (rs : List Req) {acc acc' : List Req},
      List.Pairwise (fun a b : Req => a.priority ≤ b.priority) acc →
      (∀ x ∈ rs, x.detour ≠ d) →
      removeFirstP d acc = some acc' →
      removeFirstP d (pbuild rs acc) = some (pbuild rs acc') := by
  intro rs
  induction rs with
  | nil => exact fun _ _ h => h
  | cons r rs ih =>
      intro acc acc' hs hall hrem
      show removeFirstP d (pbuild rs (insertLEP r acc)) = some (pbuild rs (insertLEP r acc'))
      exact ih (pairwise_insertLEP hs) (fun x hx => hall x (by simp [hx]))
        (removeFirstP_insertLEP hs (hall r (by simp)) hrem)

theorem removeFirstP_insertLEP_self {d : Nat} {x : Req} (hx : x.detour = d) :
    ∀ {acc : List Req}, (∀ y ∈ acc, y.detour ≠ d) →
      removeFirstP d (insertLEP x acc) = some acc := by
  intro acc
  induction acc with
  | nil =>
      intro _
      simp [insertLEP, removeFirstP, hx]
  | cons h t ih =>
      intro hall
      unfold insertLEP
      by_cases hp : h.priority ≤ x.priority
      · rw [if_pos hp]
        unfold removeFirstP
        rw [if_neg (hall h (by simp)), ih (fun y hy => hall y (by simp [hy]))]
        rfl
      · rw [if_neg hp]
        unfold removeFirstP
        rw [if_pos hx]

theorem pbuild_append :
    ∀ (a b acc : List Req), pbuild (a ++ b) acc = pbuild b (pbuild a acc) := by
  intro a
  induction a with
  | nil => intro b acc; rfl
  | cons c a ih =>
      intro b acc
      show pbuild (a ++ b) (insertLEP c acc) = _
      rw [ih]
      rfl

theorem removeFirstP_pbuild_split (u v : List Req) (x : Req)
    (hnd : ((u ++ x :: v).map Req.detour).Nodup) :
    removeFirstP x.detour (pbuild (u ++ x :: v) []) = some (pbuild (u ++ v) []) := by
  have hnd' : ((u.map Req.detour) ++ x.detour :: (v.map Req.detour)).Nodup := by
    simpa using hnd
  obtain ⟨hndu, hndxv, hdisj⟩ := List.nodup_append.mp hnd'
  have hxu : ∀ y ∈ u, y.detour ≠ x.detour := by
    intro y hy hc
    exact hdisj (hc ▸ List.mem_map_of_mem Req.detour hy) (by simp)
  have hxv : ∀ y ∈ v, y.detour ≠ x.detour := by
    intro y hy hc
    have := (List.nodup_cons.mp hndxv).1
    exact this (hc ▸ List.mem_map_of_mem Req.detour hy)
  have hAperm : (pbuild u []).Perm u := by
    simpa using pbuild_perm u []
  have hAno : ∀ y ∈ pbuild u [], y.detour ≠ x.detour := by
    intro y hy
    exact hxu y (hAperm.mem_iff.mp hy)
  have hAsorted : List.Pairwise (fun a b : Req => a.priority ≤ b.priority) (pbuild u []) :=
    pairwise_pbuild u [] (List.Pairwise.nil)
  rw [pbuild_append u (x :: v) []]
  show removeFirstP x.detour (pbuild v (insertLEP x (pbuild u []))) = _
  rw [removeFirstP_pbuild v (pairwise_insertLEP hAsorted) hxv
    (removeFirstP_insertLEP_self rfl hAno)]
  rw [pbuild_append u v []]

theorem removeFirstP_map (d : Nat) :
    ∀ (l : List HookElement),
      removeFirstP d (l.map payload)
        = (removeFirstDetour d l).map (fun l' => l'.map payload) := by
  intro l
  induction l with
  | nil => rfl
  | cons e es ih =>
      show removeFirstP d (payload e :: es.map payload) = _
      unfold removeFirstP removeFirstDetour
      by_cases hd1 : e.detour = d
      · rw [if_pos (show (payload e).detour = d from hd1), if_pos hd1]
        rfl
      · rw [if_neg (show (payload e).detour ≠ d from hd1), if_neg hd1, ih]
        cases removeFirstDetour d es <;> rfl

end HookModel

namespace HookModel

/-! ## Shape of a fold of installs on one target (toward C9) -/

theorem lookupA_single (T : Nat) (hd : HookData) : lookupA [(T, hd)] T = some hd := by
  simp [lookupA]

theorem updateA_single (T : Nat) (hd v : HookData) : updateA [(T, hd)] T v = [(T, v)] := by
  simp [updateA]

theorem payload_slots (l : List HookElement) :
    (l.map payload).map Req.slot = l.map (·.originalFunc) := by
  rw [List.map_map]
  rfl

theorem payload_detours (l : List HookElement) :
    (l.map payload).map Req.detour = l.map (·.detour) := by
  rw [List.map_map]
  rfl

theorem headDetour_payload_congr {o o' : Nat} {l1 l2 : List HookElement}
    (h : l1.map payload = l2.map payload) (hne : l1 ≠ []) :
    headDetour o l1 = headDetour o' l2 := by
  cases l1 with
  | nil => exact absurd rfl hne
  | cons e1 t1 =>
      cases l2 with
      | nil => simp at h
      | cons e2 t2 =>
          simp only [List.map_cons, List.cons.injEq] at h
          have : e1.detour = e2.detour := by
            have := h.1
            simp [payload] at this
            exact this.1
          simp [headDetour, this]

theorem wiredFrom_mem_eq {o : Nat} {m1 m2 : Nat → Nat} :
    ∀ {l1 l2 : List HookElement}, l1.map payload = l2.map payload →
      WiredFrom o m1 l1 → WiredFrom o m2 l2 →
      ∀ s ∈ l1.map (·.originalFunc), m1 s = m2 s := by
  intro l1
  induction l1 with
  | nil =>
      intro l2 _ _ _ s hs
      simp at hs
  | cons e1 t1 ih =>
      intro l2 hpl hw1 hw2 s hs
      cases l2 with
      | nil => simp at hpl
      | cons e2 t2 =>
          simp only [List.map_cons, List.cons.injEq] at hpl
          obtain ⟨hpe, hpt⟩ := hpl
          have hslot : e1.originalFunc = e2.originalFunc := by
            simp [payload] at hpe
            exact hpe.2.1
          simp only [List.map_cons, List.mem_cons] at hs
          rcases hs with hs | hs
          · subst hs
            cases t1 with
            | nil =>
                cases t2 with
                | cons e22 t2' => simp at hpt
                | nil =>
                    have h1 : m1 e1.originalFunc = o := hw1
                    have h2 : m2 e2.originalFunc = o := hw2
                    rw [h1, hslot, h2]
            | cons e12 t1' =>
                cases t2 with
                | nil => simp at hpt
                | cons e22 t2' =>
                    have h1 : m1 e1.originalFunc = e12.detour := hw1.1
                    have h2 : m2 e2.originalFunc = e22.detour := hw2.1
                    have hdet : e12.detour = e22.detour := by
                      simp only [List.map_cons, List.cons.injEq] at hpt
                      have := hpt.1
                      simp [payload] at this
                      exact this.1
                    rw [h1, hdet, hslot, h2]
          · cases t1 with
            | nil => simp at hs
            | cons e12 t1' =>
                cases t2 with
                | nil => simp at hpt
                | cons e22 t2' =>
                    exact ih hpt hw1.2 hw2.2 s (by simpa using hs)

theorem runInstalls_single_chain (T p : Nat) :
    ∀ (rs : List Req) (hd : HookData) (mem : Nat → Nat),
      ∃ hd' mem',
        runInstalls T p ⟨[(T, hd)], mem⟩ rs = ⟨[(T, hd')], mem'⟩ ∧
        hd'.hooks = buildHooks rs hd.hookId hd.hooks ∧
        hd'.hookId = hd.hookId + rs.length ∧
        hd'.stub = hd.stub ∧
        hd'.target = hd.target ∧
        (rs = [] → hd' = hd ∧ mem' = mem) ∧
        (rs ≠ [] → hd'.origin = p ∧ hd'.start = headDetour p hd'.hooks) := by
  intro rs
  induction rs with
  | nil =>
      intro hd mem
      exact ⟨hd, mem, rfl, rfl, by simp, rfl, rfl,
        fun _ => ⟨rfl, rfl⟩, fun h => absurd rfl h⟩
  | cons r rs ih =>
      intro hd mem
      have hstep :
          (hook ⟨[(T, hd)], mem⟩ T r.detour r.slot r.priority (some (1, p))).state
            = ⟨[(T, { hd with
                hookId := hd.hookId + 1
                hooks := insertElem ⟨r.detour, r.slot, r.priority, hd.hookId + 1⟩ hd.hooks
                start := (updateCallList hd.origin
                  (insertElem ⟨r.detour, r.slot, r.priority, hd.hookId + 1⟩ hd.hooks)).1
                origin := p })],
              applyWrites mem (updateCallList hd.origin
                (insertElem ⟨r.detour, r.slot, r.priority, hd.hookId + 1⟩ hd.hooks)).2⟩ := by
        rw [hook_eq_existing ⟨[(T, hd)], mem⟩ T r.detour r.slot r.priority (1, p)
          (lookupA_single T hd)]
        rw [updateA_single]
      show ∃ hd' mem',
          runInstalls T p (hook ⟨[(T, hd)], mem⟩ T r.detour r.slot r.priority
            (some (1, p))).state rs = ⟨[(T, hd')], mem'⟩ ∧ _
      rw [hstep]
      obtain ⟨hd', mem', heq, hhooks, hid, hstub, htgt, hnil, hcons⟩ := ih _ _
      refine ⟨hd', mem', heq, hhooks, ?_, hstub, htgt, ?_, ?_⟩
      · rw [hid]
        show hd.hookId + 1 + rs.length = hd.hookId + (r :: rs).length
        simp only [List.length_cons]
        omega
      · intro hc
        simp at hc
      · intro _
        by_cases hrs : rs = []
        · subst hrs
          obtain ⟨hhd, _⟩ := hnil rfl
          subst hhd
          refine ⟨rfl, ?_⟩
          show (updateCallList hd.origin _).1 = _
          rw [updateCallList_fst]
          exact headDetour_congr (insertElem_ne_nil _ _)
        · exact hcons hrs

theorem runInstalls_from_empty (T p : Nat) (r : Req) (rs : List Req) :
    ∃ hd' mem',
      runInstalls T p st0 (r :: rs) = ⟨[(T, hd')], mem'⟩ ∧
      hd'.hooks = buildHooks (r :: rs) 0 [] ∧
      hd'.hookId = (r :: rs).length ∧
      hd'.stub = 1 ∧
      hd'.target = T ∧
      hd'.origin = p ∧
      hd'.start = headDetour p hd'.hooks := by
  have hstep : (hook st0 T r.detour r.slot r.priority (some (1, p))).state
      = ⟨[(T, ⟨T, p, (updateCallList p [⟨r.detour, r.slot, r.priority, 1⟩]).1, 1, 1,
            [⟨r.detour, r.slot, r.priority, 1⟩]⟩)],
          applyWrites st0.mem (updateCallList p [⟨r.detour, r.slot, r.priority, 1⟩]).2⟩ := by
    rw [hook_eq_new_ok st0 T r.detour r.slot r.priority (1, p) rfl (by simp)]
    rfl
  show ∃ hd' mem',
      runInstalls T p (hook st0 T r.detour r.slot r.priority (some (1, p))).state rs
        = ⟨[(T, hd')], mem'⟩ ∧ _
  rw [hstep]
  obtain ⟨hd', mem', heq, hhooks, hid, hstub, htgt, hnil, hcons⟩ :=
    runInstalls_single_chain T p rs _ _
  refine ⟨hd', mem', heq, hhooks, ?_, hstub, htgt, ?_, ?_⟩
  · rw [hid]
    show 1 + rs.length = (r :: rs).length
    simp only [List.length_cons]
    omega
  · by_cases hrs : rs = []
    · subst hrs
      exact ((hnil rfl).1) ▸ rfl
    · exact (hcons hrs).1
  · by_cases hrs : rs = []
    · subst hrs
      obtain ⟨hhd, _⟩ := hnil rfl
      subst hhd
      rw [updateCallList_fst]
    · exact (hcons hrs).2

end HookModel

namespace HookModel

/-! ## C9: removing an entry undoes its installation -/

theorem eraseA_single (T : Nat) (hd : HookData) : eraseA [(T, hd)] T = [] := by
  simp [eraseA]

theorem hook_single_step (T p : Nat) (r : Req) (hd : HookData) (mem : Nat → Nat) :
    (hook ⟨[(T, hd)], mem⟩ T r.detour r.slot r.priority (some (1, p))).state
      = ⟨[(T, { hd with
          hookId := hd.hookId + 1
          hooks := insertElem ⟨r.detour, r.slot, r.priority, hd.hookId + 1⟩ hd.hooks
          start := (updateCallList hd.origin
            (insertElem ⟨r.detour, r.slot, r.priority, hd.hookId + 1⟩ hd.hooks)).1
          origin := p })],
        applyWrites mem (updateCallList hd.origin
          (insertElem ⟨r.detour, r.slot, r.priority, hd.hookId + 1⟩ hd.hooks)).2⟩ := by
  rw [hook_eq_existing ⟨[(T, hd)], mem⟩ T r.detour r.slot r.priority (1, p)
    (lookupA_single T hd)]
  rw [updateA_single]

theorem hook_first_step (T p : Nat) (r : Req) :
    (hook st0 T r.detour r.slot r.priority (some (1, p))).state
      = ⟨[(T, ⟨T, p, (updateCallList p [⟨r.detour, r.slot, r.priority, 1⟩]).1, 1, 1,
            [⟨r.detour, r.slot, r.priority, 1⟩]⟩)],
          applyWrites st0.mem (updateCallList p [⟨r.detour, r.slot, r.priority, 1⟩]).2⟩ := by
  rw [hook_eq_new_ok st0 T r.detour r.slot r.priority (1, p) rfl (by simp)]
  rfl

theorem pbuild_ne_nil {rs : List Req} (h : rs ≠ []) : pbuild rs [] ≠ [] := by
  intro hc
  have hlen := (pbuild_perm rs []).length_eq
  rw [hc] at hlen
  simp at hlen
  exact h (List.length_eq_zero.mp hlen.symm)

theorem nodup_slots_transfer {l : List HookElement} {rs : List Req}
    (hpl : l.map payload = pbuild rs [])
    (hnd : (rs.map Req.slot).Nodup) :
    (l.map (·.originalFunc)).Nodup := by
  have h1 : (l.map payload).map Req.slot = l.map (·.originalFunc) := payload_slots l
  rw [hpl] at h1
  have hperm : ((pbuild rs []).map Req.slot).Perm (rs.map Req.slot) := by
    have := (pbuild_perm rs []).map Req.slot
    simpa using this
  rw [← h1]
  exact hperm.nodup_iff.mpr hnd

/-- C9: for any install sequence on one target (with pairwise distinct
detours and slots) and any of its entries `x`, installing the whole
sequence `u ++ x :: v` and then removing `x` (the engine answering
idempotently with stub 1 and previous entry point `p` throughout) leaves
the same chain — same payload sequence, same `start`, same `origin`, the
same wiring over the remaining entries' slots — as installing `u ++ v`,
the sequence with `x`'s install omitted; when `x` was the only entry both
runs leave the target unregistered. -/
theorem C9_remove_undoes_install :
    ∀ (T p : Nat) (u v : List Req) (x : Req),
      T ≠ 0 →
      ((u ++ x :: v).map Req.detour).Nodup →
      ((u ++ x :: v).map Req.slot).Nodup →
      (u ++ v = [] →
        lookupA (unhook (runInstalls T p st0 (u ++ x :: v)) T x.detour
          (some (1, p)) true).state.hooks T = none ∧
        lookupA (runInstalls T p st0 (u ++ v)).hooks T = none) ∧
      (u ++ v ≠ [] →
        ∃ hdA hdB,
          lookupA (unhook (runInstalls T p st0 (u ++ x :: v)) T x.detour
            (some (1, p)) true).state.hooks T = some hdA ∧
          lookupA (runInstalls T p st0 (u ++ v)).hooks T = some hdB ∧
          hdA.hooks.map payload = hdB.hooks.map payload ∧
          hdA.start = hdB.start ∧
          hdA.origin = hdB.origin ∧
          WiredFrom hdA.origin (unhook (runInstalls T p st0 (u ++ x :: v)) T x.detour
            (some (1, p)) true).state.mem hdA.hooks ∧
          WiredFrom hdB.origin (runInstalls T p st0 (u ++ v)).mem hdB.hooks ∧
          (∀ s ∈ hdA.hooks.map (·.originalFunc),
            (unhook (runInstalls T p st0 (u ++ x :: v)) T x.detour
              (some (1, p)) true).state.mem s = (runInstalls T p st0 (u ++ v)).mem s)) := by
  intro T p u v x hT hndd hnds
  obtain ⟨r0, rs0, hcons⟩ : ∃ r0 rs0, u ++ x :: v = r0 :: rs0 := by
    cases u with
    | nil => exact ⟨x, v, rfl⟩
    | cons u0 u' => exact ⟨u0, u' ++ x :: v, rfl⟩
  obtain ⟨hdA0, memA, hAeq0, hAhooks0, hAid0, hAstub0, hAtgt0, hAorigin0, hAstart0⟩ :=
    runInstalls_from_empty T p r0 rs0
  have hAeq : runInstalls T p st0 (u ++ x :: v) = ⟨[(T, hdA0)], memA⟩ := by
    rw [hcons]
    exact hAeq0
  have hAhooks : hdA0.hooks = buildHooks (u ++ x :: v) 0 [] := by
    rw [hcons]
    exact hcons ▸ hAhooks0
  have hpayA : hdA0.hooks.map payload = pbuild (u ++ x :: v) [] := by
    rw [hAhooks]
    have := payload_buildHooks (u ++ x :: v) 0 [] (by simp)
    simpa using this
  have hsplitP := removeFirstP_pbuild_split u v x hndd
  have hmap := removeFirstP_map x.detour hdA0.hooks
  rw [hpayA, hsplitP] at hmap
  cases hrd : removeFirstDetour x.detour hdA0.hooks with
  | none =>
      rw [hrd] at hmap
      simp at hmap
  | some l' =>
      rw [hrd] at hmap
      simp only [Option.map_some', Option.some.injEq] at hmap
      -- hmap : pbuild (u ++ v) [] = l'.map payload
      constructor
      · intro huv
        obtain ⟨hu, hv⟩ := List.append_eq_nil.mp huv
        subst hu
        subst hv
        have hl' : l' = [] := by
          have : l'.map payload = pbuild ([] ++ []) [] := hmap.symm
          simp [pbuild] at this
          exact this
        subst hl'
        constructor
        · rw [hAeq, unhook_eq_emptied ⟨[(T, hdA0)], memA⟩ T x.detour (some (1, p)) true
            hT (lookupA_single T hdA0) hrd]
          show lookupA (eraseA [(T, hdA0)] T) T = none
          rw [eraseA_single]
          rfl
        · rfl
      · intro huv
        have hl'ne : l' ≠ [] := by
          intro hc
          rw [hc] at hmap
          simp at hmap
          exact pbuild_ne_nil huv hmap
        have hnduv : ((u ++ v).map Req.slot).Nodup := by
          have hsub : (u ++ v).Sublist (u ++ x :: v) :=
            (List.sublist_cons_self x v).append_left u
          exact (hsub.map Req.slot).nodup hnds
        have hndl' : (l'.map (·.originalFunc)).Nodup :=
          nodup_slots_transfer hmap.symm hnduv
        -- final A state
        have hAfin : (unhook (runInstalls T p st0 (u ++ x :: v)) T x.detour
            (some (1, p)) true).state
            = ⟨[(T, { hdA0 with
                hooks := l'
                start := (updateCallList hdA0.origin l').1
                origin := p })],
              applyWrites memA (updateCallList hdA0.origin l').2⟩ := by
          rw [hAeq, unhook_eq_rest ⟨[(T, hdA0)], memA⟩ T x.detour (1, p) true hT
            (lookupA_single T hdA0) hrd hl'ne]
          rw [updateA_single]
        obtain ⟨hwA_frame, hwA, hstartA⟩ :=
          updateCallList_spec hdA0.origin l' memA hndl'
        -- B side
        obtain hnil | ⟨q, rl, hqrl⟩ := (u ++ v).eq_nil_or_concat
        · exact absurd hnil huv
        rw [List.concat_eq_append] at hqrl
        obtain ⟨hdB, memB, hBeq, hBhooks, hBorigin, hBpay, hwB, hstartB⟩ :
            ∃ hdB memB,
              runInstalls T p st0 (u ++ v) = ⟨[(T, hdB)], memB⟩ ∧
              hdB.hooks = buildHooks (u ++ v) 0 [] ∧
              hdB.origin = p ∧
              hdB.hooks.map payload = pbuild (u ++ v) [] ∧
              WiredFrom p memB hdB.hooks ∧
              hdB.start = headDetour p hdB.hooks := by
          have hndB : ((buildHooks (u ++ v) 0 []).map (·.originalFunc)).Nodup := by
            refine nodup_slots_transfer ?_ hnduv
            have := payload_buildHooks (u ++ v) 0 [] (by simp)
            simpa using this
          have hpayB0 : (buildHooks (u ++ v) 0 []).map payload = pbuild (u ++ v) [] := by
            have := payload_buildHooks (u ++ v) 0 [] (by simp)
            simpa using this
          have hBnil : ∀ hlist : List HookElement,
              hlist = buildHooks (u ++ v) 0 [] →
              hlist.map payload = pbuild (u ++ v) [] := by
            intro hlist hl
            rw [hl]
            exact hpayB0
          cases q with
          | nil =>
              have hsingle : ([⟨rl.detour, rl.slot, rl.priority, 1⟩] : List HookElement)
                  = buildHooks (u ++ v) 0 [] := by
                rw [hqrl]
                rfl
              refine ⟨⟨T, p, (updateCallList p [⟨rl.detour, rl.slot, rl.priority, 1⟩]).1,
                1, 1, [⟨rl.detour, rl.slot, rl.priority, 1⟩]⟩,
                applyWrites st0.mem
                  (updateCallList p [⟨rl.detour, rl.slot, rl.priority, 1⟩]).2,
                ?_, hsingle, rfl, hBnil _ hsingle, ?_, ?_⟩
              · rw [hqrl]
                show (hook st0 T rl.detour rl.slot rl.priority (some (1, p))).state = _
                exact hook_first_step T p rl
              · obtain ⟨_, hw, _⟩ := updateCallList_spec p
                  [⟨rl.detour, rl.slot, rl.priority, 1⟩] st0.mem (by simp)
                exact hw
              · rw [updateCallList_fst]
          | cons q0 q' =>
              obtain ⟨hdq, memq, hqeq, hqhooks, hqid, hqstub, hqtgt, hqorigin, hqstart⟩ :=
                runInstalls_from_empty T p q0 q'
              have hBstep : runInstalls T p st0 (u ++ v)
                  = (hook ⟨[(T, hdq)], memq⟩ T rl.detour rl.slot rl.priority
                      (some (1, p))).state := by
                rw [hqrl, runInstalls_append, hqeq]
                rfl
              have hhooksB : insertElem ⟨rl.detour, rl.slot, rl.priority, hdq.hookId + 1⟩
                  hdq.hooks = buildHooks (u ++ v) 0 [] := by
                rw [hqrl, buildHooks_append (q0 :: q') [rl] 0 []]
                rw [hqhooks, hqid]
                simp [buildHooks]
              refine ⟨{ hdq with
                  hookId := hdq.hookId + 1
                  hooks := insertElem ⟨rl.detour, rl.slot, rl.priority, hdq.hookId + 1⟩
                    hdq.hooks
                  start := (updateCallList hdq.origin
                    (insertElem ⟨rl.detour, rl.slot, rl.priority, hdq.hookId + 1⟩
                      hdq.hooks)).1
                  origin := p },
                applyWrites memq (updateCallList hdq.origin
                  (insertElem ⟨rl.detour, rl.slot, rl.priority, hdq.hookId + 1⟩
                    hdq.hooks)).2,
                ?_, hhooksB, rfl, hBnil _ hhooksB, ?_, ?_⟩
              · rw [hBstep, hook_single_step]
              · show WiredFrom p (applyWrites memq (updateCallList hdq.origin
                    (insertElem ⟨rl.detour, rl.slot, rl.priority, hdq.hookId + 1⟩
                      hdq.hooks)).2) _
                obtain ⟨_, hw, _⟩ := updateCallList_spec hdq.origin
                  (insertElem ⟨rl.detour, rl.slot, rl.priority, hdq.hookId + 1⟩ hdq.hooks)
                  memq (hhooksB ▸ hndB)
                rw [← hqorigin]
                exact hw
              · show (updateCallList hdq.origin _).1 = _
                rw [updateCallList_fst]
                rw [show hdq.origin = p from hqorigin]
        -- assemble
        have hpayA' : l'.map payload = hdB.hooks.map payload := by
          rw [hBpay]
          exact hmap.symm
        refine ⟨{ hdA0 with
            hooks := l'
            start := (updateCallList hdA0.origin l').1
            origin := p }, hdB, ?_, ?_, hpayA', ?_, ?_, ?_, ?_, ?_⟩
        · rw [hAfin]
          exact lookupA_single T _
        · rw [hBeq]
          exact lookupA_single T _
        · show (updateCallList hdA0.origin l').1 = hdB.start
          rw [updateCallList_fst, hstartB, hAorigin0]
          exact headDetour_payload_congr hpayA' hl'ne
        · show p = hdB.origin
          rw [hBorigin]
        · show WiredFrom p (unhook (runInstalls T p st0 (u ++ x :: v)) T x.detour
            (some (1, p)) true).state.mem l'
          rw [hAfin]
          show WiredFrom p (applyWrites memA (updateCallList hdA0.origin l').2) l'
          rw [← hAorigin0]
          exact hwA
        · rw [hBeq, hBorigin]
          exact hwB
        · intro s hs
          rw [hAfin, hBeq]
          show applyWrites memA (updateCallList hdA0.origin l').2 s = memB s
          refine wiredFrom_mem_eq hpayA' ?_ hwB s hs
          show WiredFrom p (applyWrites memA (updateCallList hdA0.origin l').2) l'
          rw [← hAorigin0]
          exact hwA

end HookModel

namespace HookModel

/-- C9 witness: three installs at priorities 0, 1, 2 on target 5 followed
by removal of the middle entry (detour 20) match two installs of the outer
entries alone. -/
theorem C9_remove_undoes_install_witness :
    ∃ hdA hdB,
      lookupA (unhook (runInstalls 5 100 st0 [⟨10, 1, 0⟩, ⟨20, 2, 1⟩, ⟨30, 3, 2⟩])
        5 20 (some (1, 100)) true).state.hooks 5 = some hdA ∧
      lookupA (runInstalls 5 100 st0 [⟨10, 1, 0⟩, ⟨30, 3, 2⟩]).hooks 5 = some hdB ∧
      hdA.hooks.map payload = hdB.hooks.map payload ∧
      hdA.start = hdB.start ∧
      hdA.origin = hdB.origin ∧
      WiredFrom hdA.origin (unhook (runInstalls 5 100 st0
        [⟨10, 1, 0⟩, ⟨20, 2, 1⟩, ⟨30, 3, 2⟩]) 5 20 (some (1, 100)) true).state.mem
        hdA.hooks ∧
      WiredFrom hdB.origin (runInstalls 5 100 st0 [⟨10, 1, 0⟩, ⟨30, 3, 2⟩]).mem
        hdB.hooks ∧
      (∀ s ∈ hdA.hooks.map (·.originalFunc),
        (unhook (runInstalls 5 100 st0 [⟨10, 1, 0⟩, ⟨20, 2, 1⟩, ⟨30, 3, 2⟩])
          5 20 (some (1, 100)) true).state.mem s
          = (runInstalls 5 100 st0 [⟨10, 1, 0⟩, ⟨30, 3, 2⟩]).mem s) :=
  (C9_remove_undoes_install 5 100 [⟨10, 1, 0⟩] [⟨30, 3, 2⟩] ⟨20, 2, 1⟩
    (by decide) (by decide) (by decide)).2 (by decide)

end HookModel
